import Mathlib

/-!
Verification development for the paspailleur pattern-structure library.

The pattern domain is embedded as a type `P` carrying a `Lattice` instance with
decidable order and equality: this is the capability contract the core consumes
(meet `&` = `⊓`, join `|` = `⊔`, ordering `<=` = `≤`, equality, hashability).
Object universes are fixed index ranges `0..n-1`; bit-vector extents are embedded
either as `Finset ℕ` (sets of object indices) or as `List Bool` (positional
bitarrays), whichever matches the operations the source performs on them.
-/

set_option maxHeartbeats 1000000

namespace Paspailleur

variable {P : Type} [Lattice P] [DecidableEq P] [Inhabited P]
variable [DecidableRel ((· ≤ ·) : P → P → Prop)]

instance instDecidableLTPattern : DecidableRel ((· < ·) : P → P → Prop) :=
  fun a b => decidable_of_iff (a ≤ b ∧ ¬ b ≤ a) lt_iff_le_not_le.symm

/-- Keep the first occurrence of every value, drop later duplicates.
Renders Python dict/set de-duplication with insertion-order iteration. -/
def dedupFirst : List P → List P
  | [] => []
  | a :: rest => a :: ((dedupFirst rest).filter fun b => decide (b ≠ a))

/-- Embeds the loop of `PatternStructure.fit` that builds `_object_irreducibles`:
a mapping (insertion-ordered association list) from each distinct object
description to the set of positions of the objects carrying exactly that
description. `objs` is the list of object descriptions in insertion order. -/
def objectIrreducibles (objs : List P) : List (P × Finset ℕ) :=
  (dedupFirst objs).map fun q =>
    (q, (Finset.range objs.length).filter fun g => objs.get? g = some q)

/-- Embeds `PatternStructure.extent` (with `return_bitarray=True`): the union of
the irreducible extents of every object-irreducible pattern that is `⊒` the
query pattern, starting from the empty extent. -/
def psExtent (irr : List (P × Finset ℕ)) (p : P) : Finset ℕ :=
  ((irr.filter fun qe => decide (p ≤ qe.1)).map Prod.snd).foldl (· ∪ ·) ∅

/-- Embeds the fallback `reduce(self.PatternType.__or__, self._object_irreducibles)`
of `PatternStructure.intent`: the join of every object-irreducible pattern.
On an empty map the Python `reduce` has no value to produce (the unfit check
precedes this code path); we return `default` there. -/
def joinIrr (irr : List (P × Finset ℕ)) : P :=
  match irr.map Prod.fst with
  | [] => default
  | q :: qs => qs.foldl (· ⊔ ·) q

/-- Embeds `PatternStructure.intent` on a bit-vector argument: the meet of every
object-irreducible pattern whose irreducible extent is a subset of the query
object set, or the join of all object-irreducible patterns when none is. -/
def psIntent (irr : List (P × Finset ℕ)) (objects : Finset ℕ) : P :=
  match (irr.filter fun qe => decide (qe.2 ⊆ objects)).map Prod.fst with
  | [] => joinIrr irr
  | q :: qs => qs.foldl (· ⊓ ·) q

/-! ## init_atomic_patterns -/

/-- Embeds the Step 1 insertion of `PatternStructure.init_atomic_patterns`:
a new pattern is placed immediately before the first already-listed pattern it
is `≤`, keeping each per-extent list in a topological order. -/
def insertTopo (a : P) : List P → List P
  | [] => [a]
  | b :: rest => if a ≤ b then a :: b :: rest else b :: insertTopo a rest

/-- Extend the extent-keyed grouping with one atomic pattern: a fresh extent key
is appended at the end (dict insertion order), an existing key has the pattern
inserted into its topologically sorted list. -/
def addToGroup (ext : Finset ℕ) (a : P) : List (Finset ℕ × List P) → List (Finset ℕ × List P)
  | [] => [(ext, [a])]
  | (e, ps) :: rest =>
      if e = ext then (e, insertTopo a ps) :: rest else (e, ps) :: addToGroup ext a rest

/-- Embeds Step 1 of `init_atomic_patterns`: group the candidate atomic patterns
(the deduplicated union of `atomic_patterns` over all object-irreducible
patterns, given by the capability function `atomsF`) by their extents. -/
def patternsPerExtent (atomsF : P → List P) (irr : List (P × Finset ℕ)) :
    List (Finset ℕ × List P) :=
  (dedupFirst ((irr.map Prod.fst).flatMap atomsF)).foldl
    (fun acc a => addToGroup (psExtent irr a) a acc) []

/-- Lexicographic comparison of ascending index lists, as Python compares the
tuples `tuple(ext.search(True))`. -/
def natListLe : List ℕ → List ℕ → Bool
  | [], _ => true
  | _ :: _, [] => false
  | a :: as, b :: bs => if a < b then true else if b < a then false else natListLe as bs

/-- Ascending list of the elements of a finite set of naturals, as
`bitarray.search(True)` lists set bits in increasing position order. -/
def finsetAsc (e : Finset ℕ) : List ℕ :=
  (List.range (e.sup id + 1)).filter fun i => decide (i ∈ e)

/-- Embeds the sort key `(-ext.count(), tuple(ext.search(True)))` of Step 2 of
`init_atomic_patterns`: larger extents first, ties broken lexicographically. -/
def extentPrec (e1 e2 : Finset ℕ) : Prop :=
  e2.card < e1.card ∨ (e1.card = e2.card ∧ natListLe (finsetAsc e1) (finsetAsc e2) = true)

instance : DecidableRel extentPrec := fun e1 e2 => by
  unfold extentPrec; infer_instance

/-- The per-extent pattern list of a grouping, empty for an unknown key. -/
def groupOf (groups : List (Finset ℕ × List P)) (e : Finset ℕ) : List P :=
  (((groups.find? fun ge => ge.1 == e).map Prod.snd)).getD []

/-- Embeds the flattened ordered mapping built at the end of
`init_atomic_patterns`: patterns laid out extent block by extent block, extents
sorted coarsest-first, each block in its topological order. -/
def initAtomicPatternsPairs (atomsF : P → List P) (irr : List (P × Finset ℕ)) :
    List (P × Finset ℕ) :=
  let groups := patternsPerExtent atomsF irr
  let sortedExtents := List.insertionSort extentPrec (groups.map Prod.fst)
  sortedExtents.flatMap fun e => (groupOf groups e).map fun p => (p, e)

/-- The pattern stored at position `i` of the flattened atomic-pattern list. -/
def patAt (pats : List (P × Finset ℕ)) (i : ℕ) : P := (pats.getD i default).1

/-- The extent stored at position `i` of the flattened atomic-pattern list. -/
def extAt (pats : List (P × Finset ℕ)) (i : ℕ) : Finset ℕ := (pats.getD i default).2

/-- Embeds the candidate preselection of Step 2 of `init_atomic_patterns`:
the patterns that may be strictly greater than the one at `idx` are the later
patterns of the same extent block together with every pattern of a strictly
contained extent. The strict-containment relation renders, as the spec
describes it, the net effect of `sort_extents_subsumption` (caspailleur's
`sort_intents_inclusion` run in reverse plus `inverse_order` and the sentinel
bookkeeping): extent A subsumes extent B iff A ⊋ B as bit sets, transitively
closed. Contiguous extent blocks make the source's index arithmetic coincide
with this description. -/
def patternsToTest (pats : List (P × Finset ℕ)) (idx : ℕ) : List ℕ :=
  (List.range pats.length).filter fun k =>
    decide ((idx < k ∧ extAt pats k = extAt pats idx) ∨ extAt pats k ⊂ extAt pats idx)

/-- Embeds the `while patterns_to_test.any()` loop of `init_atomic_patterns`:
repeatedly take the lowest untested index (skipping the ones dropped so far);
if the current pattern is strictly less precise than the one found there,
record it together with its whole already-computed greater-set and drop that
greater-set from the candidates (`patterns_to_test &= ~patterns_order[i]`,
rendered by the accumulated `banned` set). -/
def absorbLoop (pats : List (P × Finset ℕ)) (ordersAfter : ℕ → Finset ℕ) (p : P) :
    List ℕ → Finset ℕ → Finset ℕ → Finset ℕ
  | [], s, _ => s
  | k :: rest, s, banned =>
      if k ∈ banned then absorbLoop pats ordersAfter p rest s banned
      else if p < patAt pats k then
        absorbLoop pats ordersAfter p rest (insert k s ∪ ordersAfter k)
          (banned ∪ ordersAfter k)
      else absorbLoop pats ordersAfter p rest s banned

/-- Embeds the `for pattern in reversed(atomic_patterns)` loop of Step 2 of
`init_atomic_patterns`, producing the greater-set bit vectors for the last `k`
positions of the flattened list; the set at a later position is already
available (in the tail of the result) when an earlier one is computed. The
position handled at counter value `k` is `pats.length - k`. -/
def ordersFrom (pats : List (P × Finset ℕ)) : ℕ → List (Finset ℕ)
  | 0 => []
  | k + 1 =>
      absorbLoop pats
        (fun j => (ordersFrom pats k).getD (j - (pats.length - k)) ∅)
        (patAt pats (pats.length - (k + 1)))
        (patternsToTest pats (pats.length - (k + 1))) ∅ ∅ :: ordersFrom pats k

/-- Embeds the `_atomic_patterns_order` field produced by
`init_atomic_patterns`: one greater-set per atomic pattern, parallel to the
flattened atomic-pattern list. -/
def initAtomicPatternsOrder (atomsF : P → List P) (irr : List (P × Finset ℕ)) :
    List (Finset ℕ) :=
  ordersFrom (initAtomicPatternsPairs atomsF irr) (initAtomicPatternsPairs atomsF irr).length

/-- One pass of transitive closure over the stored greater-set bit vectors:
each greater-set absorbs the greater-sets of its members. -/
def transClosePass (orders : List (Finset ℕ)) : List (Finset ℕ) :=
  orders.map fun s => s ∪ s.biUnion fun j => orders.getD j ∅

/-! ## The PatternStructure state and fit -/

/-- Errors `PatternStructure.fit` can raise: the `IndexError` of
`list(object_irreducibles)[0]` on an empty input, and the
`NotImplementedError` of the `atomic_patterns` capability. -/
inductive FitError : Type
  | indexError : FitError
  | notImplementedError : FitError
deriving DecidableEq

/-- The mutable state of a `PatternStructure` object: `None` fields of a freshly
constructed instance become `Option.none`. -/
structure PatternStructure (G P : Type) : Type where
  objectNames : Option (List G)
  objectIrreducibles : Option (List (P × Finset ℕ))
  atomicPatterns : Option (List (P × Finset ℕ))
  atomicPatternsOrder : Option (List (Finset ℕ))

/-- A freshly constructed `PatternStructure()`. -/
def PatternStructure.empty (G P : Type) : PatternStructure G P :=
  ⟨none, none, none, none⟩

/-- The resolution of the `compute_atomic_patterns` flag inside
`PatternStructure.fit`: an explicit argument is taken as given; an unset flag
triggers the capability probe, which reads the first object-irreducible
pattern (`IndexError` on an empty mapping) and asks whether the domain
supports `atomic_patterns` (`atomsQ.isSome`: the probe catches the
`NotImplementedError` of an unsupported domain). -/
def fitComputeFlag (atomsQ : Option (P → List P)) (irr : List (P × Finset ℕ)) :
    Option Bool → Except FitError Bool
  | some b => Except.ok b
  | none =>
      match irr with
      | [] => Except.error FitError.indexError
      | _ :: _ => Except.ok atomsQ.isSome

/-- Embeds `PatternStructure.fit`. `atomsQ` is the pattern domain's
`atomic_patterns` capability (`none` when the domain raises
`NotImplementedError`); `descr` is the ordered object-description mapping;
`computeAtomic` is the `compute_atomic_patterns` argument. When the resolved
flag is true, `init_atomic_patterns` recomputes the atomic-pattern fields
(raising `NotImplementedError` on an unsupported domain); when it is false,
the atomic-pattern fields of the prior state are left in place. -/
def PatternStructure.fit {G : Type} (atomsQ : Option (P → List P))
    (s : PatternStructure G P) (descr : List (G × P)) (computeAtomic : Option Bool) :
    Except FitError (PatternStructure G P) :=
  match fitComputeFlag atomsQ (Paspailleur.objectIrreducibles (descr.map Prod.snd))
      computeAtomic with
  | Except.error e => Except.error e
  | Except.ok true =>
      match atomsQ with
      | some atomsF =>
          Except.ok ⟨some (descr.map Prod.fst),
            some (Paspailleur.objectIrreducibles (descr.map Prod.snd)),
            some (initAtomicPatternsPairs atomsF
              (Paspailleur.objectIrreducibles (descr.map Prod.snd))),
            some (initAtomicPatternsOrder atomsF
              (Paspailleur.objectIrreducibles (descr.map Prod.snd)))⟩
      | none => Except.error FitError.notImplementedError
  | Except.ok false =>
      Except.ok ⟨some (descr.map Prod.fst),
        some (Paspailleur.objectIrreducibles (descr.map Prod.snd)),
        s.atomicPatterns, s.atomicPatternsOrder⟩

/-! ## iter_premaximal_patterns -/

/-- Embeds the sort key comparison of `iter_premaximal_patterns`:
`(extent.count(), extent.search(True))`, ascending. -/
def premLe (irr : List (P × Finset ℕ)) (p q : P) : Prop :=
  (psExtent irr p).card < (psExtent irr q).card ∨
    ((psExtent irr p).card = (psExtent irr q).card ∧
      natListLe (finsetAsc (psExtent irr p)) (finsetAsc (psExtent irr q)) = true)

instance (irr : List (P × Finset ℕ)) : DecidableRel (premLe irr) := fun p q => by
  unfold premLe; infer_instance

/-- Embeds the deletion scan of `iter_premaximal_patterns`: a pattern is kept
iff no earlier kept pattern is `⊒` it; kept patterns are appended in scan
order. -/
def premScan : List P → List P → List P
  | kept, [] => kept
  | kept, p :: rest =>
      if kept.any fun o => decide (p ≤ o) then premScan kept rest
      else premScan (kept ++ [p]) rest

/-- Embeds `PatternStructure.iter_premaximal_patterns` (patterns only): sort the
object-irreducible patterns by ascending extent size, then drop every pattern
dominated by an earlier kept one. -/
def iterPremaximalPatterns (irr : List (P × Finset ℕ)) : List P :=
  premScan [] (List.insertionSort (premLe irr) (irr.map Prod.fst))

/-! ## Canonical-augmentation traversals

Both Close-By-One enumerators of `mine_equivalence_classes.py` are loops over
a worklist of states; processing a state either discards it (support prune or
canonical-form failure) or yields one element and generates child states whose
rank (the index-to-add component) strictly increases and stays bounded. The
generic combinators below capture the stack (depth-first) and queue
(breadth-first) disciplines once; each algorithm supplies its per-state body
as a `step` function. -/

section Traversal

variable {F Y : Type}

/-- Well-foundedness data for a canonical-augmentation traversal: every child
of a processed state has a strictly larger rank, ranks are bounded by `N`, and
a state has at most `N` children. -/
def StepBounded (N : ℕ) (rk : F → ℕ) (step : F → Option (Y × List F)) : Prop :=
  ∀ f y cs, step f = some (y, cs) →
    cs.length ≤ N ∧ ∀ c ∈ cs, rk f < rk c ∧ rk c ≤ N

/-- Depth-first worklist loop: the front of the list is the top of the stack;
pushing children in reverse order and then popping, as the source does, is
rendered by prepending the child list in order. -/
def dfsLoop (N : ℕ) (rk : F → ℕ) (step : F → Option (Y × List F))
    (hstep : StepBounded N rk step) : List F → List Y
  | [] => []
  | f :: rest =>
      match hs : step f with
      | none => dfsLoop N rk step hstep rest
      | some (y, cs) => y :: dfsLoop N rk step hstep (cs ++ rest)
termination_by stack => (stack.map fun f => (N + 2) ^ (N + 1 - rk f)).sum
decreasing_by
  · simp only [List.map_cons, List.sum_cons]
    exact Nat.lt_add_of_pos_left (Nat.pos_pow_of_pos _ (by omega))
  · rename F => f
    simp only [List.map_cons, List.sum_cons, List.map_append, List.sum_append]
    have key : (cs.map fun c => (N + 2) ^ (N + 1 - rk c)).sum < (N + 2) ^ (N + 1 - rk f) := by
      obtain ⟨hlen, hc⟩ := hstep f y cs hs
      by_cases hcs : cs = []
      · subst hcs
        simp only [List.map_nil, List.sum_nil]
        exact Nat.pos_pow_of_pos _ (by omega)
      · obtain ⟨c0, hc0m⟩ := List.exists_mem_of_ne_nil cs hcs
        have hc0 := hc c0 hc0m
        have hfN : rk f < N := lt_of_lt_of_le hc0.1 hc0.2
        have hbound : ∀ x ∈ cs.map fun c => (N + 2) ^ (N + 1 - rk c),
            x ≤ (N + 2) ^ (N - rk f) := by
          intro x hx
          rw [List.mem_map] at hx
          obtain ⟨c, hcmem, rfl⟩ := hx
          exact Nat.pow_le_pow_right (by omega) (by have := hc c hcmem; omega)
        have hsum := List.sum_le_card_nsmul _ _ hbound
        rw [smul_eq_mul, List.length_map] at hsum
        have hexp : N + 1 - rk f = (N - rk f) + 1 := by omega
        calc (cs.map fun c => (N + 2) ^ (N + 1 - rk c)).sum
            ≤ cs.length * (N + 2) ^ (N - rk f) := hsum
          _ ≤ N * (N + 2) ^ (N - rk f) := Nat.mul_le_mul_right _ hlen
          _ < (N + 2) * (N + 2) ^ (N - rk f) :=
              (Nat.mul_lt_mul_right (Nat.pos_pow_of_pos _ (by omega))).mpr (by omega)
          _ = (N + 2) ^ ((N - rk f) + 1) := by rw [pow_succ, Nat.mul_comm]
          _ = (N + 2) ^ (N + 1 - rk f) := by rw [hexp]
    omega

/-- Modelled from the spec: the breadth-first worklist discipline of
`iter_all_patterns(..., depth_first=False)` — a queue (popleft, children
appended in forward order) instead of a stack. -/
def bfsLoop (N : ℕ) (rk : F → ℕ) (step : F → Option (Y × List F))
    (hstep : StepBounded N rk step) : List F → List Y
  | [] => []
  | f :: rest =>
      match hs : step f with
      | none => bfsLoop N rk step hstep rest
      | some (y, cs) => y :: bfsLoop N rk step hstep (rest ++ cs)
termination_by queue => (queue.map fun f => (N + 2) ^ (N + 1 - rk f)).sum
decreasing_by
  · simp only [List.map_cons, List.sum_cons]
    exact Nat.lt_add_of_pos_left (Nat.pos_pow_of_pos _ (by omega))
  · rename F => f
    simp only [List.map_cons, List.sum_cons, List.map_append, List.sum_append]
    have key : (cs.map fun c => (N + 2) ^ (N + 1 - rk c)).sum < (N + 2) ^ (N + 1 - rk f) := by
      obtain ⟨hlen, hc⟩ := hstep f y cs hs
      by_cases hcs : cs = []
      · subst hcs
        simp only [List.map_nil, List.sum_nil]
        exact Nat.pos_pow_of_pos _ (by omega)
      · obtain ⟨c0, hc0m⟩ := List.exists_mem_of_ne_nil cs hcs
        have hc0 := hc c0 hc0m
        have hfN : rk f < N := lt_of_lt_of_le hc0.1 hc0.2
        have hbound : ∀ x ∈ cs.map fun c => (N + 2) ^ (N + 1 - rk c),
            x ≤ (N + 2) ^ (N - rk f) := by
          intro x hx
          rw [List.mem_map] at hx
          obtain ⟨c, hcmem, rfl⟩ := hx
          exact Nat.pow_le_pow_right (by omega) (by have := hc c hcmem; omega)
        have hsum := List.sum_le_card_nsmul _ _ hbound
        rw [smul_eq_mul, List.length_map] at hsum
        have hexp : N + 1 - rk f = (N - rk f) + 1 := by omega
        calc (cs.map fun c => (N + 2) ^ (N + 1 - rk c)).sum
            ≤ cs.length * (N + 2) ^ (N - rk f) := hsum
          _ ≤ N * (N + 2) ^ (N - rk f) := Nat.mul_le_mul_right _ hlen
          _ < (N + 2) * (N + 2) ^ (N - rk f) :=
              (Nat.mul_lt_mul_right (Nat.pos_pow_of_pos _ (by omega))).mpr (by omega)
          _ = (N + 2) ^ ((N - rk f) + 1) := by rw [pow_succ, Nat.mul_comm]
          _ = (N + 2) ^ (N + 1 - rk f) := by rw [hexp]
    omega

/-- The per-state depth-first subtree of yields: the same computation as
`dfsLoop`, organised one root state at a time. -/
def frameRun (N : ℕ) (rk : F → ℕ) (step : F → Option (Y × List F))
    (hstep : StepBounded N rk step) (f : F) : List Y :=
  match hs : step f with
  | none => []
  | some (y, cs) => y :: cs.attach.flatMap fun c => frameRun N rk step hstep c.1
termination_by N + 1 - rk f
decreasing_by
  obtain ⟨c, hcmem⟩ := c
  have := (hstep f y cs hs).2 c hcmem
  simp only
  omega

end Traversal

/-! ## Object-wise Close-By-One (`iter_intents_via_ocbo`) -/

/-- Modelled from the spec: `base_functions.intention` (the module
`algorithms/base_functions.py` is not among the provided sources). Per the
spec, the intent of a set of objects is the meet of the patterns of all
objects in it; with no objects it is the join of all per-object patterns (the
maximal reachable pattern), matching the empty-extent intent of the reference
dataset. `objs` lists the per-object patterns, `s` selects object indices. -/
def intention (objs : List P) (s : Finset ℕ) : P :=
  match (objs.enum.filter fun gp => decide (gp.1 ∈ s)).map Prod.snd with
  | [] =>
      match objs with
      | [] => default
      | q :: qs => qs.foldl (· ⊔ ·) q
  | p :: ps => ps.foldl (· ⊓ ·) p

/-- Modelled from the spec: `base_functions.extension` (module not among the
provided sources). The extent of a pattern is the set of all objects whose
pattern is `⊒` it. -/
def extension (objs : List P) (p : P) : Finset ℕ :=
  ((objs.enum.filter fun gp => decide (p ≤ gp.2)).map Prod.fst).toFinset

/-- Embeds `extent.search(False, start)`: ascending indices below `n` whose bit
is unset, starting from position `start`. -/
def searchNotFrom (extent : Finset ℕ) (n : ℕ) (start : ℤ) : List ℕ :=
  (List.range n).filter fun g => decide (g ∉ extent) && decide (start ≤ (g : ℤ))

/-- The child states pushed by `iter_intents_via_ocbo` after a yield: one state
`(extent, g)` per object index `g ≥ t+1` outside the closure extent; the source
pushes them in reverse so that the lowest index is popped first, which this
ascending list order renders. -/
def ocboChildren (objs : List P) (extent : Finset ℕ) (t : ℤ) : List (Finset ℕ × ℤ) :=
  (searchNotFrom extent objs.length (t + 1)).map fun g => (extent, Int.ofNat g)

/-- The proto-extent of an ocbo state: the known extent plus the object to
add, when its index is non-negative. -/
def ocboProto (frame : Finset ℕ × ℤ) : Finset ℕ :=
  if 0 ≤ frame.2 then insert frame.2.toNat frame.1 else frame.1

/-- The canonical-form test of `iter_intents_via_ocbo`: the state is discarded
when the closure `extent` pulled in an object with index below the added one
that is outside the proto-extent. -/
def ocboSkip (proto extent : Finset ℕ) (t : ℤ) : Bool :=
  decide (0 ≤ t) && decide (∃ g ∈ extent \ proto, (g : ℤ) < t)

/-- Embeds the body of the `while stack` loop of `iter_intents_via_ocbo`:
compute the proto-extent, its intent and the closure extent; discard the state
when the canonical-form test fails; otherwise yield the intent and generate
the child states. -/
def ocboStep (objs : List P) (frame : Finset ℕ × ℤ) :
    Option (P × List (Finset ℕ × ℤ)) :=
  if ocboSkip (ocboProto frame)
      (extension objs (intention objs (ocboProto frame))) frame.2 then none
  else some (intention objs (ocboProto frame),
    ocboChildren objs (extension objs (intention objs (ocboProto frame))) frame.2)

/-- The rank of an ocbo state: its index-to-add component shifted past the
`-1` seed sentinel. -/
def ocboRk (frame : Finset ℕ × ℤ) : ℕ := (frame.2 + 1).toNat

/-- The ocbo step satisfies the traversal bounds: children live at object
indexes above the added one and below the object count. -/
def ocboStepBounded (objs : List P) :
    StepBounded objs.length ocboRk (ocboStep objs) := by
  intro f y cs hs
  unfold ocboStep at hs
  split at hs
  · simp at hs
  · simp only [Option.some.injEq, Prod.mk.injEq] at hs
    obtain ⟨hy, hcs⟩ := hs
    subst hcs
    constructor
    · unfold ocboChildren searchNotFrom
      rw [List.length_map]
      exact le_trans (List.length_filter_le _ _) (le_of_eq (List.length_range _))
    · intro c hcmem
      unfold ocboChildren at hcmem
      rw [List.mem_map] at hcmem
      obtain ⟨g, hg, heq⟩ := hcmem
      unfold searchNotFrom at hg
      rw [List.mem_filter] at hg
      have hg1 : g < objs.length := List.mem_range.mp hg.1
      have hg2 := hg.2
      simp only [Bool.and_eq_true, decide_eq_true_eq] at hg2
      subst heq
      unfold ocboRk
      simp only [Int.ofNat_eq_coe]
      omega

/-- Embeds `iter_intents_via_ocbo`: run the depth-first stack loop from the
seed state `(empty extent, -1)` over the per-object patterns. -/
def iterIntentsViaOcbo (objs : List P) : List P :=
  dfsLoop objs.length ocboRk (ocboStep objs) (ocboStepBounded objs)
    [((∅ : Finset ℕ), (-1 : ℤ))]

/-! ## Atomic-pattern Close-By-One (`iter_all_patterns`) -/

/-- Bitarray `&` over positional bit vectors. -/
def baAnd (x y : List Bool) : List Bool := List.zipWith and x y

/-- Bitarray `|` over positional bit vectors. -/
def baOr (x y : List Bool) : List Bool := List.zipWith or x y

/-- Bitarray `~` over a positional bit vector. -/
def baNot (x : List Bool) : List Bool := x.map not

/-- `bitarray.count()`: the number of set bits. -/
def baCount (x : List Bool) : ℕ := x.count true

/-- The atomic pattern at position `i` of the ordered atomic-pattern mapping. -/
def patAtBA (pats : List (P × List Bool)) (i : ℕ) : P := (pats.getD i (default, [])).1

/-- The extent bitarray at position `i` of the ordered atomic-pattern mapping. -/
def extAtBA (pats : List (P × List Bool)) (i : ℕ) : List Bool := (pats.getD i (default, [])).2

/-- Embeds `reduce(bitarray.__and__, proto_closure_extents, total_extent)` of
`iter_all_patterns`: intersect the extents of the involved atomic patterns, in
ascending index order, starting from the total extent. -/
def iterAllExtent (pats : List (P × List Bool)) (total : List Bool) (proto : Finset ℕ) :
    List Bool :=
  (finsetAsc proto).foldl (fun acc i => baAnd acc (extAtBA pats i)) total

/-- Embeds `reduce(join_func, ..., min_pattern)` of `iter_all_patterns`: join
the involved atomic patterns onto the minimal pattern, ascending. -/
def iterAllPattern (pats : List (P × List Bool)) (minPat : P) (proto : Finset ℕ) : P :=
  (finsetAsc proto).foldl (fun acc i => acc ⊔ patAtBA pats i) minPat

/-- The canonical-form test of `iter_all_patterns`: fail when some atomic
pattern with index below the added one and outside the involved set is already
`⊑` the new pattern. -/
def iterAllCanonFail (pats : List (P × List Bool)) (involved : Finset ℕ) (toAdd : ℕ)
    (newPattern : P) : Bool :=
  decide (∃ i ∈ Finset.range toAdd, i ∉ involved ∧ patAtBA pats i ≤ newPattern)

/-- The closure step of `iter_all_patterns`: additionally mark every index
above the added one whose atomic pattern is `⊑` the new pattern. -/
def iterAllClosure (pats : List (P × List Bool)) (proto : Finset ℕ) (toAdd : ℕ)
    (newPattern : P) : Finset ℕ :=
  proto ∪ (Finset.range pats.length).filter
    (fun i => toAdd < i ∧ i ∉ proto ∧ patAtBA pats i ≤ newPattern)

/-- The child states of `iter_all_patterns`: one per index above the added one
outside the closure, ascending (the source pushes them in reverse order so the
lowest index is popped first). -/
def iterAllChildren (pats : List (P × List Bool)) (closure : Finset ℕ) (toAdd : ℕ) :
    List (Finset ℕ × ℕ) :=
  ((List.range pats.length).filter fun i => decide (toAdd < i) && decide (i ∉ closure)).map
    fun i => (closure, i)

/-- Embeds the body of the `while stack` loop of `iter_all_patterns`: prune by
minimum support, test the canonical form, then yield the (pattern, extent)
pair and generate the child states from the closure. -/
def iterAllStep (pats : List (P × List Bool)) (minPat : P) (total : List Bool)
    (minSupport : ℕ) (frame : Finset ℕ × ℕ) :
    Option ((P × List Bool) × List (Finset ℕ × ℕ)) :=
  if baCount (iterAllExtent pats total (insert frame.2 frame.1)) < minSupport then none
  else if iterAllCanonFail pats frame.1 frame.2
      (iterAllPattern pats minPat (insert frame.2 frame.1)) then none
  else some ((iterAllPattern pats minPat (insert frame.2 frame.1),
      iterAllExtent pats total (insert frame.2 frame.1)),
    iterAllChildren pats (iterAllClosure pats (insert frame.2 frame.1) frame.2
      (iterAllPattern pats minPat (insert frame.2 frame.1))) frame.2)

/-- The `iter_all_patterns` step satisfies the traversal bounds. -/
def iterAllStepBounded (pats : List (P × List Bool)) (minPat : P) (total : List Bool)
    (minSupport : ℕ) :
    StepBounded pats.length (fun f => f.2 + 1) (iterAllStep pats minPat total minSupport) := by
  intro f y cs hs
  unfold iterAllStep at hs
  split at hs
  · simp at hs
  · split at hs
    · simp at hs
    · simp only [Option.some.injEq, Prod.mk.injEq] at hs
      obtain ⟨hy, hcs⟩ := hs
      subst hcs
      constructor
      · unfold iterAllChildren
        rw [List.length_map]
        exact le_trans (List.length_filter_le _ _) (le_of_eq (List.length_range _))
      · intro c hcmem
        unfold iterAllChildren at hcmem
        rw [List.mem_map] at hcmem
        obtain ⟨i, hi, heq⟩ := hcmem
        rw [List.mem_filter] at hi
        have hi1 : i < pats.length := List.mem_range.mp hi.1
        have hi2 := hi.2
        simp only [Bool.and_eq_true, decide_eq_true_eq] at hi2
        subst heq
        simp only
        omega

/-- Embeds `iter_all_patterns` (the version of the provided sources: absolute
integer minimum support, depth-first): compute the total extent and the
minimal pattern from the first atomic pattern, yield them unconditionally,
then run the stack loop seeded with one state per atomic-pattern index. On an
empty mapping the source raises `IndexError` reading the first atomic pattern;
the claims about this function are stated for nonempty mappings. `minPatQ` is
the domain's optional `min_pattern`. -/
def iterAllPatterns (pats : List (P × List Bool)) (minPatQ : Option P)
    (minSupport : ℕ) : List (P × List Bool) :=
  match pats with
  | [] => []
  | p0 :: rest0 =>
      (match minPatQ with
        | none => rest0.foldl (fun acc pe => acc ⊓ pe.1) p0.1
        | some m => m,
       baOr p0.2 (baNot p0.2)) ::
      dfsLoop pats.length (fun f => f.2 + 1)
        (iterAllStep pats
          (match minPatQ with
            | none => rest0.foldl (fun acc pe => acc ⊓ pe.1) p0.1
            | some m => m)
          (baOr p0.2 (baNot p0.2)) minSupport)
        (iterAllStepBounded pats _ _ minSupport)
        ((List.range pats.length).map fun i => ((∅ : Finset ℕ), i))

/-- Modelled from the spec: the breadth-first mode of `iter_all_patterns`
(`depth_first=False`, absent from the provided source snapshot but exercised
by the repository tests): the same per-state computation driven by a queue
(popleft, children appended in forward order) instead of a stack. -/
def iterAllPatternsBFS (pats : List (P × List Bool)) (minPatQ : Option P)
    (minSupport : ℕ) : List (P × List Bool) :=
  match pats with
  | [] => []
  | p0 :: rest0 =>
      (match minPatQ with
        | none => rest0.foldl (fun acc pe => acc ⊓ pe.1) p0.1
        | some m => m,
       baOr p0.2 (baNot p0.2)) ::
      bfsLoop pats.length (fun f => f.2 + 1)
        (iterAllStep pats
          (match minPatQ with
            | none => rest0.foldl (fun acc pe => acc ⊓ pe.1) p0.1
            | some m => m)
          (baOr p0.2 (baNot p0.2)) minSupport)
        (iterAllStepBounded pats _ _ minSupport)
        ((List.range pats.length).map fun i => ((∅ : Finset ℕ), i))

/-- Modelled from the spec: `iter_all_patterns` with its `depth_first` flag;
the default `true` gives the source depth-first traversal, `false` the
breadth-first one. -/
def iterAllPatternsModelled (pats : List (P × List Bool)) (minPatQ : Option P)
    (minSupport : ℕ) (depthFirst : Bool) : List (P × List Bool) :=
  if depthFirst then iterAllPatterns pats minPatQ minSupport
  else iterAllPatternsBFS pats minPatQ minSupport

/-- Modelled from the spec: the conversion of a fractional minimum support in
(0,1) to the absolute count `⌈object count × fraction⌉`; any other value is
used as an absolute count. -/
def convertMinSupport (nObjects : ℕ) (ms : ℚ) : ℚ :=
  if 0 < ms ∧ ms < 1 then (⌈(nObjects : ℚ) * ms⌉ : ℚ) else ms

/-- The object count seen by `iter_all_patterns`: the popcount of the total
extent (all bits set over the bitarray length of the first atomic pattern). -/
def iterAllNObjects (pats : List (P × List Bool)) : ℕ :=
  match pats with
  | [] => 0
  | p0 :: _ => baCount (baOr p0.2 (baNot p0.2))

/-- The `iter_all_patterns` step with a rational support threshold, comparing
the extent popcount as a rational. -/
def iterAllStepQ (pats : List (P × List Bool)) (minPat : P) (total : List Bool)
    (minSupportQ : ℚ) (frame : Finset ℕ × ℕ) :
    Option ((P × List Bool) × List (Finset ℕ × ℕ)) :=
  if (baCount (iterAllExtent pats total (insert frame.2 frame.1)) : ℚ) < minSupportQ then none
  else if iterAllCanonFail pats frame.1 frame.2
      (iterAllPattern pats minPat (insert frame.2 frame.1)) then none
  else some ((iterAllPattern pats minPat (insert frame.2 frame.1),
      iterAllExtent pats total (insert frame.2 frame.1)),
    iterAllChildren pats (iterAllClosure pats (insert frame.2 frame.1) frame.2
      (iterAllPattern pats minPat (insert frame.2 frame.1))) frame.2)

/-- The rational-threshold step satisfies the traversal bounds. -/
def iterAllStepQBounded (pats : List (P × List Bool)) (minPat : P) (total : List Bool)
    (minSupportQ : ℚ) :
    StepBounded pats.length (fun f => f.2 + 1) (iterAllStepQ pats minPat total minSupportQ) := by
  intro f y cs hs
  unfold iterAllStepQ at hs
  split at hs
  · simp at hs
  · split at hs
    · simp at hs
    · simp only [Option.some.injEq, Prod.mk.injEq] at hs
      obtain ⟨hy, hcs⟩ := hs
      subst hcs
      constructor
      · unfold iterAllChildren
        rw [List.length_map]
        exact le_trans (List.length_filter_le _ _) (le_of_eq (List.length_range _))
      · intro c hcmem
        unfold iterAllChildren at hcmem
        rw [List.mem_map] at hcmem
        obtain ⟨i, hi, heq⟩ := hcmem
        rw [List.mem_filter] at hi
        have hi1 : i < pats.length := List.mem_range.mp hi.1
        have hi2 := hi.2
        simp only [Bool.and_eq_true, decide_eq_true_eq] at hi2
        subst heq
        simp only
        omega

/-- Modelled from the spec: `iter_all_patterns` accepting a rational minimum
support, converted at entry (fractional values in (0,1) become the absolute
count `⌈object count × fraction⌉`) before being used to filter extents. -/
def iterAllPatternsFrac (pats : List (P × List Bool)) (minPatQ : Option P)
    (ms : ℚ) : List (P × List Bool) :=
  match pats with
  | [] => []
  | p0 :: rest0 =>
      (match minPatQ with
        | none => rest0.foldl (fun acc pe => acc ⊓ pe.1) p0.1
        | some m => m,
       baOr p0.2 (baNot p0.2)) ::
      dfsLoop pats.length (fun f => f.2 + 1)
        (iterAllStepQ pats
          (match minPatQ with
            | none => rest0.foldl (fun acc pe => acc ⊓ pe.1) p0.1
            | some m => m)
          (baOr p0.2 (baNot p0.2))
          (convertMinSupport (baCount (baOr p0.2 (baNot p0.2))) ms))
        (iterAllStepQBounded pats _ _ _)
        ((List.range pats.length).map fun i => ((∅ : Finset ℕ), i))

/-- Modelled from the spec: the family of closed extents compatible with an
ocbo state `(K, t)` — the closed subsets of the object range that contain the
proto-extent and agree with `K` strictly below `t`. The subtree rooted at the
state enumerates exactly the intents of this family. -/
def ocboFamily (objs : List P) (f : Finset ℕ × ℤ) : Finset (Finset ℕ) :=
  ((Finset.range objs.length).powerset).filter fun E =>
    extension objs (intention objs E) = E ∧ ocboProto f ⊆ E ∧
      ∀ x ∈ E, (x : ℤ) < f.2 → x ∈ f.1

/-- The states reachable by `iter_intents_via_ocbo`: the known extent lives in
the object range and the index-to-add is the `-1` seed sentinel or a valid
object index. -/
def ocboGoodState (objs : List P) (f : Finset ℕ × ℤ) : Prop :=
  f.1 ⊆ Finset.range objs.length ∧
    (f.2 = -1 ∨ (0 ≤ f.2 ∧ f.2 < (objs.length : ℤ)))

/-- The Step-1 grouping invariant: unique keys, every listed pattern has its
key as extent, and every per-extent list is topologically sorted. -/
def GroupInv (irr : List (P × Finset ℕ)) (groups : List (Finset ℕ × List P)) : Prop :=
  (groups.map Prod.fst).Nodup ∧
    ∀ ge ∈ groups, (∀ p ∈ ge.2, psExtent irr p = ge.1) ∧
      ge.2.Pairwise (fun x y => ¬ y < x)

/-! # Theorems -/

section TraversalLemmas

variable {F Y : Type}

theorem dfsLoop_cons_none (N : ℕ) (rk : F → ℕ) (step : F → Option (Y × List F))
    (hstep : StepBounded N rk step) (f : F) (rest : List F) (hs : step f = none) :
    dfsLoop N rk step hstep (f :: rest) = dfsLoop N rk step hstep rest := by
  rw [dfsLoop]
  split
  · rfl
  · rename_i heq
    rw [hs] at heq
    exact Option.noConfusion heq

theorem dfsLoop_cons_some (N : ℕ) (rk : F → ℕ) (step : F → Option (Y × List F))
    (hstep : StepBounded N rk step) (f : F) (rest : List F) (y : Y) (cs : List F)
    (hs : step f = some (y, cs)) :
    dfsLoop N rk step hstep (f :: rest) = y :: dfsLoop N rk step hstep (cs ++ rest) := by
  rw [dfsLoop]
  split
  · rename_i heq
    rw [hs] at heq
    exact Option.noConfusion heq
  · rename_i heq
    rw [hs] at heq
    simp only [Option.some.injEq, Prod.mk.injEq] at heq
    obtain ⟨rfl, rfl⟩ := heq
    rfl

theorem bfsLoop_cons_none (N : ℕ) (rk : F → ℕ) (step : F → Option (Y × List F))
    (hstep : StepBounded N rk step) (f : F) (rest : List F) (hs : step f = none) :
    bfsLoop N rk step hstep (f :: rest) = bfsLoop N rk step hstep rest := by
  rw [bfsLoop]
  split
  · rfl
  · rename_i heq
    rw [hs] at heq
    exact Option.noConfusion heq

theorem bfsLoop_cons_some (N : ℕ) (rk : F → ℕ) (step : F → Option (Y × List F))
    (hstep : StepBounded N rk step) (f : F) (rest : List F) (y : Y) (cs : List F)
    (hs : step f = some (y, cs)) :
    bfsLoop N rk step hstep (f :: rest) = y :: bfsLoop N rk step hstep (rest ++ cs) := by
  rw [bfsLoop]
  split
  · rename_i heq
    rw [hs] at heq
    exact Option.noConfusion heq
  · rename_i heq
    rw [hs] at heq
    simp only [Option.some.injEq, Prod.mk.injEq] at heq
    obtain ⟨rfl, rfl⟩ := heq
    rfl

theorem frameRun_none (N : ℕ) (rk : F → ℕ) (step : F → Option (Y × List F))
    (hstep : StepBounded N rk step) (f : F) (hs : step f = none) :
    frameRun N rk step hstep f = [] := by
  rw [frameRun.eq_def, hs]

theorem frameRun_some (N : ℕ) (rk : F → ℕ) (step : F → Option (Y × List F))
    (hstep : StepBounded N rk step) (f : F) (y : Y) (cs : List F)
    (hs : step f = some (y, cs)) :
    frameRun N rk step hstep f = y :: cs.flatMap (frameRun N rk step hstep) := by
  rw [frameRun.eq_def, hs]
  simp

theorem dfsLoop_eq_flatMap (N : ℕ) (rk : F → ℕ) (step : F → Option (Y × List F))
    (hstep : StepBounded N rk step) (stack : List F) :
    dfsLoop N rk step hstep stack = stack.flatMap (frameRun N rk step hstep) := by
  induction stack using dfsLoop.induct N rk step hstep with
  | case1 => simp [dfsLoop]
  | case2 f rest hs ih =>
      rw [dfsLoop_cons_none N rk step hstep f rest hs, ih, List.flatMap_cons,
        frameRun_none N rk step hstep f hs, List.nil_append]
  | case3 f rest y cs hs ih =>
      rw [dfsLoop_cons_some N rk step hstep f rest y cs hs, ih, List.flatMap_cons,
        frameRun_some N rk step hstep f y cs hs, List.flatMap_append]
      simp

theorem bfsLoop_perm_flatMap (N : ℕ) (rk : F → ℕ) (step : F → Option (Y × List F))
    (hstep : StepBounded N rk step) (queue : List F) :
    (bfsLoop N rk step hstep queue).Perm
      (queue.flatMap (frameRun N rk step hstep)) := by
  induction queue using bfsLoop.induct N rk step hstep with
  | case1 => simp [bfsLoop]
  | case2 f rest hs ih =>
      rw [bfsLoop_cons_none N rk step hstep f rest hs, List.flatMap_cons,
        frameRun_none N rk step hstep f hs, List.nil_append]
      exact ih
  | case3 f rest y cs hs ih =>
      rw [bfsLoop_cons_some N rk step hstep f rest y cs hs, List.flatMap_cons,
        frameRun_some N rk step hstep f y cs hs]
      refine List.Perm.trans (List.Perm.cons y ih) ?_
      rw [List.flatMap_append]
      exact List.Perm.cons y List.perm_append_comm

theorem frameRun_congr (N : ℕ) (rk : F → ℕ) (step1 step2 : F → Option (Y × List F))
    (h12 : ∀ f, step1 f = step2 f)
    (h1 : StepBounded N rk step1) (h2 : StepBounded N rk step2) (f : F) :
    frameRun N rk step1 h1 f = frameRun N rk step2 h2 f := by
  induction f using frameRun.induct N rk step1 h1 with
  | case1 f hs =>
      rw [frameRun_none N rk step1 h1 f hs,
        frameRun_none N rk step2 h2 f ((h12 f).symm.trans hs)]
  | case2 f y cs hs ih =>
      rw [frameRun_some N rk step1 h1 f y cs hs,
        frameRun_some N rk step2 h2 f y cs ((h12 f).symm.trans hs)]
      congr 1
      exact List.flatMap_congr fun c hc => ih ⟨c, hc⟩

end TraversalLemmas



/-- C10: fitting an empty object-description mapping with
`compute_atomic_patterns` unset fails with the `IndexError` of the
atomic-pattern capability probe (which reads the first object-irreducible
pattern) — it neither completes nor raises the unfit-state error — while the
same call with `compute_atomic_patterns` explicitly `False` succeeds. -/
theorem fit_empty_probe_index_error (G : Type) (atomsQ : Option (P → List P))
    (s : PatternStructure G P) :
    PatternStructure.fit atomsQ s [] none = Except.error FitError.indexError ∧
    (PatternStructure.fit atomsQ s [] (some false)).isOk = true := by
  constructor
  · rfl
  · rfl

/-- C5 amended: `fit` always replaces `object_names` and
`object_irreducibles` with values computed solely from its arguments; the
atomic-pattern fields are freshly recomputed when `compute_atomic_patterns`
is true or resolves to true, and keep their previous (possibly stale) values
when it is false or resolves to false. -/
theorem fit_replaces_state {G : Type} (atomsQ : Option (P → List P))
    (s : PatternStructure G P) (descr : List (G × P)) (cap : Option Bool)
    (r : PatternStructure G P)
    (h : PatternStructure.fit atomsQ s descr cap = Except.ok r) :
    r.objectNames = some (descr.map Prod.fst) ∧
    r.objectIrreducibles = some (objectIrreducibles (descr.map Prod.snd)) ∧
    ((cap = some false ∨ (cap = none ∧ atomsQ = none)) →
      r.atomicPatterns = s.atomicPatterns ∧
      r.atomicPatternsOrder = s.atomicPatternsOrder) ∧
    ((cap = some true ∨ (cap = none ∧ atomsQ.isSome = true)) →
      ∃ atomsF, atomsQ = some atomsF ∧
        r.atomicPatterns = some (initAtomicPatternsPairs atomsF
          (objectIrreducibles (descr.map Prod.snd))) ∧
        r.atomicPatternsOrder = some (initAtomicPatternsOrder atomsF
          (objectIrreducibles (descr.map Prod.snd)))) := by
  unfold PatternStructure.fit at h
  split at h
  · exact absurd h (by simp)
  · rename_i heq
    split at h
    · rename_i atomsF
      simp only [Except.ok.injEq] at h
      subst h
      refine ⟨rfl, rfl, ?_, ?_⟩
      · intro hcap
        rcases hcap with hcap | ⟨hcap, hq2⟩
        · subst hcap
          simp [fitComputeFlag] at heq
        · exact Option.noConfusion hq2
      · intro _
        exact ⟨atomsF, rfl, rfl, rfl⟩
    · exact absurd h (by simp)
  · rename_i heq
    simp only [Except.ok.injEq] at h
    subst h
    refine ⟨rfl, rfl, fun _ => ⟨rfl, rfl⟩, ?_⟩
    intro hcap
    rcases hcap with hcap | ⟨hcap, hq⟩
    · subst hcap
      simp [fitComputeFlag] at heq
    · subst hcap
      unfold fitComputeFlag at heq
      rcases hirr : objectIrreducibles (descr.map Prod.snd) with _ | ⟨q, irrRest⟩
      · rw [hirr] at heq
        exact absurd heq (by simp)
      · rw [hirr] at heq
        simp only [Except.ok.injEq] at heq
        rw [hq] at heq
        exact absurd heq (by simp)

/-- C5 witness for the amended theorem: a concrete fit call with
`compute_atomic_patterns=True` over the one-object mapping `{0: 5}` on the
linear-order lattice ℕ. -/
theorem fit_replaces_state_witness :
    (⟨some [0], some [(5, {0})], some [(5, {0})], some [∅]⟩ :
        PatternStructure ℕ ℕ).objectNames = some ([((0 : ℕ), (5 : ℕ))].map Prod.fst) ∧
    (⟨some [0], some [(5, {0})], some [(5, {0})], some [∅]⟩ :
        PatternStructure ℕ ℕ).objectIrreducibles =
      some (objectIrreducibles ([((0 : ℕ), (5 : ℕ))].map Prod.snd)) ∧
    ((some true = some false ∨ (some true = none ∧ (some (fun p : ℕ => [p])) = none)) →
      (⟨some [0], some [(5, {0})], some [(5, {0})], some [∅]⟩ :
        PatternStructure ℕ ℕ).atomicPatterns = (PatternStructure.empty ℕ ℕ).atomicPatterns ∧
      (⟨some [0], some [(5, {0})], some [(5, {0})], some [∅]⟩ :
        PatternStructure ℕ ℕ).atomicPatternsOrder =
        (PatternStructure.empty ℕ ℕ).atomicPatternsOrder) ∧
    ((some true = some true ∨ (some true = none ∧ (some (fun p : ℕ => [p])).isSome = true)) →
      ∃ atomsF, (some (fun p : ℕ => [p])) = some atomsF ∧
        (⟨some [0], some [(5, {0})], some [(5, {0})], some [∅]⟩ :
          PatternStructure ℕ ℕ).atomicPatterns = some (initAtomicPatternsPairs atomsF
            (objectIrreducibles ([((0 : ℕ), (5 : ℕ))].map Prod.snd))) ∧
        (⟨some [0], some [(5, {0})], some [(5, {0})], some [∅]⟩ :
          PatternStructure ℕ ℕ).atomicPatternsOrder = some (initAtomicPatternsOrder atomsF
            (objectIrreducibles ([((0 : ℕ), (5 : ℕ))].map Prod.snd)))) :=
  fit_replaces_state (some (fun p : ℕ => [p])) (PatternStructure.empty ℕ ℕ)
    [((0 : ℕ), (5 : ℕ))] (some true) _ (by rfl)

/-- C5 counterexample: refitting with `compute_atomic_patterns=False` keeps
the atomic patterns computed by an earlier fit. After fitting `{0: 5}` (atomic
patterns computed from it) and then refitting `{0: 7}` with the flag set to
`False`, the structure still stores the atomic pattern `5` with its old
extent, not the value `init_atomic_patterns` would derive from the new data. -/
theorem fit_stale_counterexample :
    (Except.toOption ((PatternStructure.fit (some (fun p : ℕ => [p]))
        (PatternStructure.empty ℕ ℕ) [((0 : ℕ), (5 : ℕ))] none).bind fun s1 =>
      PatternStructure.fit (some (fun p : ℕ => [p])) s1 [((0 : ℕ), (7 : ℕ))]
        (some false))).map PatternStructure.atomicPatterns =
      some (some [(5, {0})]) ∧
    initAtomicPatternsPairs (fun p : ℕ => [p])
      (objectIrreducibles ([((0 : ℕ), (7 : ℕ))].map Prod.snd)) = [(7, {0})] ∧
    some [((5 : ℕ), ({0} : Finset ℕ))] ≠ some [((7 : ℕ), ({0} : Finset ℕ))] := by
  refine ⟨by rfl, by rfl, by decide⟩


theorem mem_dedupFirst {a : P} : ∀ {l : List P}, a ∈ dedupFirst l ↔ a ∈ l := by
  intro l
  induction l with
  | nil => simp [dedupFirst]
  | cons b rest ih =>
      simp only [dedupFirst, List.mem_cons, List.mem_filter, decide_eq_true_eq, ih]
      by_cases hab : a = b
      · simp [hab]
      · simp [hab]

theorem nodup_dedupFirst : ∀ l : List P, (dedupFirst l).Nodup := by
  intro l
  induction l with
  | nil => simp [dedupFirst]
  | cons b rest ih =>
      rw [dedupFirst, List.nodup_cons]
      constructor
      · intro hmem
        rw [List.mem_filter] at hmem
        have h2 := hmem.2
        simp at h2
      · exact ih.filter _

theorem mem_objectIrreducibles {objs : List P} {qe : P × Finset ℕ} :
    qe ∈ objectIrreducibles objs ↔ qe.1 ∈ objs ∧
      qe.2 = (Finset.range objs.length).filter fun g => objs.get? g = some qe.1 := by
  unfold objectIrreducibles
  rw [List.mem_map]
  constructor
  · rintro ⟨q, hq, rfl⟩
    exact ⟨mem_dedupFirst.mp hq, rfl⟩
  · rintro ⟨hq, he⟩
    exact ⟨qe.1, mem_dedupFirst.mpr hq, by rw [← he]⟩

theorem mem_irr_extent {objs : List P} {qe : P × Finset ℕ}
    (hqe : qe ∈ objectIrreducibles objs) {g : ℕ} :
    g ∈ qe.2 ↔ objs.get? g = some qe.1 := by
  rw [(mem_objectIrreducibles.mp hqe).2]
  simp only [Finset.mem_filter, Finset.mem_range, decide_eq_true_eq]
  constructor
  · exact fun h => h.2
  · intro h
    exact ⟨(List.get?_eq_some.mp h).1, h⟩

theorem irr_extent_nonempty {objs : List P} {qe : P × Finset ℕ}
    (hqe : qe ∈ objectIrreducibles objs) : qe.2.Nonempty := by
  obtain ⟨hq, he⟩ := mem_objectIrreducibles.mp hqe
  obtain ⟨⟨g, hg⟩, hget⟩ := List.mem_iff_get.mp hq
  refine ⟨g, (mem_irr_extent hqe).mpr ?_⟩
  rw [List.get?_eq_get hg, hget]

theorem mem_foldl_union (l : List (Finset ℕ)) (init : Finset ℕ) (g : ℕ) :
    g ∈ l.foldl (· ∪ ·) init ↔ g ∈ init ∨ ∃ e ∈ l, g ∈ e := by
  induction l generalizing init with
  | nil => simp
  | cons e rest ih =>
      rw [List.foldl_cons, ih]
      simp only [Finset.mem_union, List.mem_cons]
      constructor
      · rintro ((h | h) | ⟨e2, he2, hg⟩)
        · exact Or.inl h
        · exact Or.inr ⟨e, Or.inl rfl, h⟩
        · exact Or.inr ⟨e2, Or.inr he2, hg⟩
      · rintro (h | ⟨e2, (rfl | he2), hg⟩)
        · exact Or.inl (Or.inl h)
        · exact Or.inl (Or.inr hg)
        · exact Or.inr ⟨e2, he2, hg⟩

theorem mem_psExtent {irr : List (P × Finset ℕ)} {p : P} {g : ℕ} :
    g ∈ psExtent irr p ↔ ∃ qe ∈ irr, p ≤ qe.1 ∧ g ∈ qe.2 := by
  unfold psExtent
  rw [mem_foldl_union]
  simp only [Finset.not_mem_empty, false_or, List.mem_map, List.mem_filter,
    decide_eq_true_eq]
  constructor
  · rintro ⟨e, ⟨qe, ⟨hqe, hle⟩, rfl⟩, hg⟩
    exact ⟨qe, hqe, hle, hg⟩
  · rintro ⟨qe, hqe, hle, hg⟩
    exact ⟨qe.2, ⟨qe, ⟨hqe, hle⟩, rfl⟩, hg⟩

theorem mem_psExtent_fit {objs : List P} {p : P} {g : ℕ} :
    g ∈ psExtent (objectIrreducibles objs) p ↔
      ∃ q, objs.get? g = some q ∧ p ≤ q := by
  rw [mem_psExtent]
  constructor
  · rintro ⟨qe, hqe, hle, hg⟩
    exact ⟨qe.1, (mem_irr_extent hqe).mp hg, hle⟩
  · rintro ⟨q, hget, hle⟩
    have hq : q ∈ objs := List.get?_mem hget
    refine ⟨(q, (Finset.range objs.length).filter fun g => objs.get? g = some q),
      mem_objectIrreducibles.mpr ⟨hq, rfl⟩, hle, ?_⟩
    exact (mem_irr_extent (mem_objectIrreducibles.mpr ⟨hq, rfl⟩)).mpr hget

theorem foldl_inf_le_init (l : List P) (a : P) : l.foldl (· ⊓ ·) a ≤ a := by
  induction l generalizing a with
  | nil => exact le_refl a
  | cons b rest ih => exact le_trans (ih (a ⊓ b)) inf_le_left

theorem foldl_inf_le_mem {l : List P} {x : P} (hx : x ∈ l) (a : P) :
    l.foldl (· ⊓ ·) a ≤ x := by
  induction l generalizing a with
  | nil => cases hx
  | cons b rest ih =>
      rcases List.mem_cons.mp hx with rfl | hx2
      · exact le_trans (foldl_inf_le_init rest (a ⊓ x)) inf_le_right
      · exact ih hx2 (a ⊓ b)

theorem le_foldl_inf {l : List P} {c a : P} (ha : c ≤ a) (h : ∀ x ∈ l, c ≤ x) :
    c ≤ l.foldl (· ⊓ ·) a := by
  induction l generalizing a with
  | nil => exact ha
  | cons b rest ih =>
      exact ih (le_inf ha (h b (List.mem_cons_self b rest)))
        fun x hx => h x (List.mem_cons_of_mem b hx)

theorem init_le_foldl_sup (l : List P) (a : P) : a ≤ l.foldl (· ⊔ ·) a := by
  induction l generalizing a with
  | nil => exact le_refl a
  | cons b rest ih => exact le_trans le_sup_left (ih (a ⊔ b))

theorem mem_le_foldl_sup {l : List P} {x : P} (hx : x ∈ l) (a : P) :
    x ≤ l.foldl (· ⊔ ·) a := by
  induction l generalizing a with
  | nil => cases hx
  | cons b rest ih =>
      rcases List.mem_cons.mp hx with rfl | hx2
      · exact le_trans le_sup_right (init_le_foldl_sup rest (a ⊔ x))
      · exact ih hx2 (a ⊔ b)

theorem foldl_sup_le {l : List P} {c a : P} (ha : a ≤ c) (h : ∀ x ∈ l, x ≤ c) :
    l.foldl (· ⊔ ·) a ≤ c := by
  induction l generalizing a with
  | nil => exact ha
  | cons b rest ih =>
      exact ih (sup_le ha (h b (List.mem_cons_self b rest)))
        fun x hx => h x (List.mem_cons_of_mem b hx)

theorem le_joinIrr {irr : List (P × Finset ℕ)} {qe : P × Finset ℕ} (hqe : qe ∈ irr) :
    qe.1 ≤ joinIrr irr := by
  unfold joinIrr
  rcases hirr : irr.map Prod.fst with _ | ⟨q, qs⟩
  · exact absurd (List.map_eq_nil_iff.mp hirr ▸ hqe) (List.not_mem_nil qe)
  · have hmem : qe.1 ∈ irr.map Prod.fst := List.mem_map_of_mem Prod.fst hqe
    rw [hirr] at hmem
    rcases List.mem_cons.mp hmem with rfl | hmem2
    · exact init_le_foldl_sup qs qe.1
    · exact mem_le_foldl_sup hmem2 q

theorem psIntent_le {irr : List (P × Finset ℕ)} {S : Finset ℕ}
    {qe : P × Finset ℕ} (hqe : qe ∈ irr) (hsub : qe.2 ⊆ S) :
    psIntent irr S ≤ qe.1 := by
  unfold psIntent
  have hmem : qe.1 ∈ (irr.filter fun x => decide (x.2 ⊆ S)).map Prod.fst :=
    List.mem_map_of_mem Prod.fst (List.mem_filter.mpr ⟨hqe, by simpa using hsub⟩)
  rcases hflt : (irr.filter fun x => decide (x.2 ⊆ S)).map Prod.fst with _ | ⟨q, qs⟩
  · rw [hflt] at hmem
    cases hmem
  · rw [hflt]
    rw [hflt] at hmem
    rcases List.mem_cons.mp hmem with rfl | hmem2
    · exact foldl_inf_le_init qs qe.1
    · exact foldl_inf_le_mem hmem2 q

theorem le_psIntent {irr : List (P × Finset ℕ)} {S : Finset ℕ} {c : P}
    (hne : ∃ qe ∈ irr, qe.2 ⊆ S)
    (h : ∀ qe ∈ irr, qe.2 ⊆ S → c ≤ qe.1) :
    c ≤ psIntent irr S := by
  unfold psIntent
  have hmemf : ∀ x ∈ (irr.filter fun x => decide (x.2 ⊆ S)).map Prod.fst, c ≤ x := by
    intro x hx
    rw [List.mem_map] at hx
    obtain ⟨qe, hqe, rfl⟩ := hx
    rw [List.mem_filter] at hqe
    exact h qe hqe.1 (by simpa using hqe.2)
  rcases hflt : (irr.filter fun x => decide (x.2 ⊆ S)).map Prod.fst with _ | ⟨q, qs⟩
  · obtain ⟨qe, hqe, hsub⟩ := hne
    have : qe.1 ∈ (irr.filter fun x => decide (x.2 ⊆ S)).map Prod.fst :=
      List.mem_map_of_mem Prod.fst (List.mem_filter.mpr ⟨hqe, by simpa using hsub⟩)
    rw [hflt] at this
    cases this
  · rw [hflt]
    refine le_foldl_inf (hmemf q ?_) fun x hx => hmemf x ?_
    · rw [hflt]
      exact List.mem_cons_self q qs
    · rw [hflt]
      exact List.mem_cons_of_mem q hx

theorem psIntent_of_no_subset {irr : List (P × Finset ℕ)} {S : Finset ℕ}
    (h : ∀ qe ∈ irr, ¬ qe.2 ⊆ S) : psIntent irr S = joinIrr irr := by
  unfold psIntent
  have hflt : irr.filter (fun x => decide (x.2 ⊆ S)) = [] := by
    rw [List.filter_eq_nil_iff]
    intro qe hqe
    simpa using h qe hqe
  rw [hflt]
  rfl



theorem subset_psExtent_iff {objs : List P} {p : P} {qe : P × Finset ℕ}
    (hqe : qe ∈ objectIrreducibles objs) :
    qe.2 ⊆ psExtent (objectIrreducibles objs) p ↔ p ≤ qe.1 := by
  constructor
  · intro hsub
    obtain ⟨g, hg⟩ := irr_extent_nonempty hqe
    have hgE := hsub hg
    rw [mem_psExtent_fit] at hgE
    obtain ⟨q, hget, hle⟩ := hgE
    rw [mem_irr_extent hqe] at hg
    rw [hg] at hget
    obtain rfl := Option.some.inj hget
    exact hle
  · intro hle g hg
    rw [mem_irr_extent hqe] at hg
    exact mem_psExtent_fit.mpr ⟨qe.1, hg, hle⟩

theorem psIntent_congr {irr : List (P × Finset ℕ)} {S1 S2 : Finset ℕ}
    (h : (irr.filter fun qe => decide (qe.2 ⊆ S1)) =
      (irr.filter fun qe => decide (qe.2 ⊆ S2))) :
    psIntent irr S1 = psIntent irr S2 := by
  unfold psIntent
  rw [h]

/-- C2 amended: over any fitted data, (1) extensivity of the closure holds for
every object set that is a union of object-irreducible extents (for arbitrary
sets it fails, see the counterexample); (2) `intent(extent(P)) ⊒ P` holds for
every pattern below the join of the object-irreducible patterns (for patterns
above it, `extent(P)` is empty and `intent` falls back to that join); and
(3) the composition intent∘extent is idempotent, unconditionally. -/
theorem galois_amended (objs : List P) :
    (∀ S : Finset ℕ,
      (∀ g ∈ S, ∃ qe ∈ objectIrreducibles objs, g ∈ qe.2 ∧ qe.2 ⊆ S) →
      S ⊆ psExtent (objectIrreducibles objs) (psIntent (objectIrreducibles objs) S)) ∧
    (∀ p : P, p ≤ joinIrr (objectIrreducibles objs) →
      p ≤ psIntent (objectIrreducibles objs) (psExtent (objectIrreducibles objs) p)) ∧
    (∀ p : P,
      psIntent (objectIrreducibles objs) (psExtent (objectIrreducibles objs)
        (psIntent (objectIrreducibles objs) (psExtent (objectIrreducibles objs) p))) =
      psIntent (objectIrreducibles objs) (psExtent (objectIrreducibles objs) p)) := by
  refine ⟨?_, ?_, ?_⟩
  · intro S hS g hg
    obtain ⟨qe, hqe, hgqe, hsub⟩ := hS g hg
    exact mem_psExtent.mpr ⟨qe, hqe, psIntent_le hqe hsub, hgqe⟩
  · intro p hp
    by_cases hex : ∃ qe ∈ objectIrreducibles objs,
        qe.2 ⊆ psExtent (objectIrreducibles objs) p
    · exact le_psIntent hex fun qe hqe hsub => (subset_psExtent_iff hqe).mp hsub
    · push_neg at hex
      rw [psIntent_of_no_subset fun qe hqe => hex qe hqe]
      exact hp
  · intro p
    by_cases hex : ∃ qe ∈ objectIrreducibles objs, p ≤ qe.1
    · obtain ⟨qe0, hqe0, hle0⟩ := hex
      have hpI : p ≤ psIntent (objectIrreducibles objs)
          (psExtent (objectIrreducibles objs) p) :=
        le_psIntent ⟨qe0, hqe0, (subset_psExtent_iff hqe0).mpr hle0⟩
          fun qe hqe hsub => (subset_psExtent_iff hqe).mp hsub
      refine psIntent_congr (List.filter_congr ?_)
      intro qe hqe
      rw [decide_eq_decide, subset_psExtent_iff hqe, subset_psExtent_iff hqe]
      constructor
      · intro hI
        exact le_trans hpI hI
      · intro hple
        exact psIntent_le hqe ((subset_psExtent_iff hqe).mpr hple)
    · push_neg at hex
      have hnone : ∀ qe ∈ objectIrreducibles objs,
          ¬ qe.2 ⊆ psExtent (objectIrreducibles objs) p := by
        intro qe hqe hsub
        exact hex qe hqe ((subset_psExtent_iff hqe).mp hsub)
      rw [psIntent_of_no_subset hnone]
      by_cases hex2 : ∃ qe ∈ objectIrreducibles objs,
          joinIrr (objectIrreducibles objs) ≤ qe.1
      · obtain ⟨qe1, hqe1, hle1⟩ := hex2
        refine le_antisymm ?_ ?_
        · have h1 : qe1.1 = joinIrr (objectIrreducibles objs) :=
            le_antisymm (le_joinIrr hqe1) hle1
          have := psIntent_le hqe1 ((subset_psExtent_iff hqe1).mpr hle1)
          rw [h1] at this
          exact this
        · exact le_psIntent ⟨qe1, hqe1, (subset_psExtent_iff hqe1).mpr hle1⟩
            fun qe hqe hsub => (subset_psExtent_iff hqe).mp hsub
      · push_neg at hex2
        rw [psIntent_of_no_subset fun qe hqe hsub =>
          hex2 qe hqe ((subset_psExtent_iff hqe).mp hsub)]

/-- C2 witness: the amended theorem applied to the one-object mapping `{0: 5}`
over the linear-order lattice ℕ, at the block-closed set `{0}` and the
pattern `3 ≤ join of irreducibles`. -/
theorem galois_amended_witness :
    (({0} : Finset ℕ) ⊆ psExtent (objectIrreducibles [(5 : ℕ)])
      (psIntent (objectIrreducibles [(5 : ℕ)]) {0})) ∧
    ((3 : ℕ) ≤ psIntent (objectIrreducibles [(5 : ℕ)])
      (psExtent (objectIrreducibles [(5 : ℕ)]) 3)) ∧
    (psIntent (objectIrreducibles [(5 : ℕ)]) (psExtent (objectIrreducibles [(5 : ℕ)])
        (psIntent (objectIrreducibles [(5 : ℕ)]) (psExtent (objectIrreducibles [(5 : ℕ)]) 3))) =
      psIntent (objectIrreducibles [(5 : ℕ)]) (psExtent (objectIrreducibles [(5 : ℕ)]) 3)) :=
  ⟨(galois_amended [(5 : ℕ)]).1 {0} (by decide),
   (galois_amended [(5 : ℕ)]).2.1 3 (by decide),
   (galois_amended [(5 : ℕ)]).2.2 3⟩

/-- C2 counterexample: extensivity `extent(intent(S)) ⊇ S` fails as stated.
With item-set patterns over objects `0 ↦ {0}`, `1 ↦ {0}`, `2 ↦ {1}` and
`S = {0}` (one object of a two-object irreducible extent), no irreducible
extent is contained in `S`, so `intent` falls back to the join `{0, 1}`,
whose extent is empty and does not contain `S`. -/
theorem galois_counterexample :
    ¬ (({0} : Finset ℕ) ⊆
      psExtent (objectIrreducibles ([{0}, {0}, {1}] : List (Finset (Fin 2))))
        (psIntent (objectIrreducibles ([{0}, {0}, {1}] : List (Finset (Fin 2)))) {0})) := by
  decide


theorem natListLe_total : ∀ xs ys : List ℕ,
    natListLe xs ys = true ∨ natListLe ys xs = true := by
  intro xs
  induction xs with
  | nil => intro ys; left; rfl
  | cons a as ih =>
      intro ys
      cases ys with
      | nil => right; rfl
      | cons b bs =>
          simp only [natListLe]
          rcases lt_trichotomy a b with h | h | h
          · left
            simp [h]
          · subst h
            simpa [lt_irrefl] using ih bs
          · right
            simp [h]

theorem natListLe_trans : ∀ xs ys zs : List ℕ, natListLe xs ys = true →
    natListLe ys zs = true → natListLe xs zs = true := by
  intro xs
  induction xs with
  | nil => intro ys zs h1 h2; rfl
  | cons a as ih =>
      intro ys zs h1 h2
      cases ys with
      | nil => simp [natListLe] at h1
      | cons b bs =>
          cases zs with
          | nil => simp [natListLe] at h2
          | cons c cs =>
              simp only [natListLe] at h1 h2 ⊢
              by_cases hab : a < b
              · by_cases hbc : b < c
                · simp [show a < c from lt_trans hab hbc]
                · by_cases hcb : c < b
                  · simp [hbc, hcb] at h2
                  · simp [show a < c by omega]
              · by_cases hba : b < a
                · simp [hab, hba] at h1
                · have hab2 : a = b := by omega
                  subst hab2
                  simp only [lt_irrefl, if_false] at h1
                  by_cases hac : a < c
                  · simp [hac]
                  · by_cases hca : c < a
                    · simp [hac, hca] at h2
                    · have hac2 : a = c := by omega
                      subst hac2
                      simp only [lt_irrefl, if_false] at h2 ⊢
                      exact ih bs cs h1 h2

theorem premLe_total (irr : List (P × Finset ℕ)) (p q : P) :
    premLe irr p q ∨ premLe irr q p := by
  unfold premLe
  rcases lt_trichotomy (psExtent irr p).card (psExtent irr q).card with h | h | h
  · exact Or.inl (Or.inl h)
  · rcases natListLe_total (finsetAsc (psExtent irr p)) (finsetAsc (psExtent irr q)) with
      h2 | h2
    · exact Or.inl (Or.inr ⟨h, h2⟩)
    · exact Or.inr (Or.inr ⟨h.symm, h2⟩)
  · exact Or.inr (Or.inl h)

theorem premLe_trans (irr : List (P × Finset ℕ)) (p q r : P)
    (h1 : premLe irr p q) (h2 : premLe irr q r) : premLe irr p r := by
  unfold premLe at h1 h2 ⊢
  rcases h1 with h1 | ⟨h1c, h1l⟩
  · rcases h2 with h2 | ⟨h2c, h2l⟩
    · exact Or.inl (lt_trans h1 h2)
    · exact Or.inl (h2c ▸ h1)
  · rcases h2 with h2 | ⟨h2c, h2l⟩
    · exact Or.inl (h1c ▸ h2)
    · exact Or.inr ⟨h1c.trans h2c, natListLe_trans _ _ _ h1l h2l⟩

theorem psExtent_anti {irr : List (P × Finset ℕ)} {p q : P} (hpq : p ≤ q) :
    psExtent irr q ⊆ psExtent irr p := by
  intro g hg
  rw [mem_psExtent] at hg ⊢
  obtain ⟨qe, hqe, hle, hgm⟩ := hg
  exact ⟨qe, hqe, le_trans hpq hle, hgm⟩

theorem psExtent_card_lt {objs : List P} {p q : P}
    (hp : p ∈ (objectIrreducibles objs).map Prod.fst) (hpq : p < q) :
    (psExtent (objectIrreducibles objs) q).card <
      (psExtent (objectIrreducibles objs) p).card := by
  rw [List.mem_map] at hp
  obtain ⟨qe, hqe, rfl⟩ := hp
  obtain ⟨g, hg⟩ := irr_extent_nonempty hqe
  have hget : objs.get? g = some qe.1 := (mem_irr_extent hqe).mp hg
  refine Finset.card_lt_card ⟨psExtent_anti (le_of_lt hpq), ?_⟩
  intro hsub
  have hgp : g ∈ psExtent (objectIrreducibles objs) qe.1 :=
    mem_psExtent_fit.mpr ⟨qe.1, hget, le_refl _⟩
  have hgq := hsub hgp
  rw [mem_psExtent_fit] at hgq
  obtain ⟨q2, hget2, hle2⟩ := hgq
  rw [hget] at hget2
  obtain rfl := Option.some.inj hget2
  exact absurd (le_antisymm (le_of_lt hpq) hle2) (ne_of_lt hpq)



theorem premScan_keeps : ∀ (todo kept : List P), ∀ a ∈ kept, a ∈ premScan kept todo := by
  intro todo
  induction todo with
  | nil => intro kept a ha; exact ha
  | cons p rest ih =>
      intro kept a ha
      unfold premScan
      split
      · exact ih kept a ha
      · exact ih (kept ++ [p]) a (List.mem_append_left _ ha)

theorem premScan_covers : ∀ (todo kept : List P), ∀ x ∈ todo,
    ∃ o ∈ premScan kept todo, x ≤ o := by
  intro todo
  induction todo with
  | nil => intro kept x hx; cases hx
  | cons p rest ih =>
      intro kept x hx
      rcases List.mem_cons.mp hx with rfl | hx2
      · unfold premScan
        split
        · rename_i hany
          rw [List.any_eq_true] at hany
          obtain ⟨o, ho, hle⟩ := hany
          exact ⟨o, premScan_keeps rest kept o ho, of_decide_eq_true hle⟩
        · exact ⟨x, premScan_keeps rest (kept ++ [x]) x
            (List.mem_append_right _ (List.mem_singleton.mpr rfl)), le_refl x⟩
      · unfold premScan
        split
        · exact ih kept x hx2
        · exact ih (kept ++ [p]) x hx2

theorem premScan_mem : ∀ (todo kept : List P), ∀ a ∈ premScan kept todo,
    a ∈ kept ∨ a ∈ todo := by
  intro todo
  induction todo with
  | nil => intro kept a ha; exact Or.inl ha
  | cons p rest ih =>
      intro kept a ha
      unfold premScan at ha
      split at ha
      · rcases ih kept a ha with h | h
        · exact Or.inl h
        · exact Or.inr (List.mem_cons_of_mem p h)
      · rcases ih (kept ++ [p]) a ha with h | h
        · rcases List.mem_append.mp h with h2 | h2
          · exact Or.inl h2
          · exact Or.inr (List.mem_cons.mpr (Or.inl (List.mem_singleton.mp h2)))
        · exact Or.inr (List.mem_cons_of_mem p h)

theorem premScan_antichain (objs : List P) :
    ∀ (todo kept : List P),
    (∀ x ∈ todo, x ∈ (objectIrreducibles objs).map Prod.fst) →
    (∀ a ∈ kept, a ∈ (objectIrreducibles objs).map Prod.fst) →
    List.Pairwise (premLe (objectIrreducibles objs)) todo →
    (∀ a ∈ kept, ∀ x ∈ todo, premLe (objectIrreducibles objs) a x) →
    (∀ a ∈ kept, ∀ b ∈ kept, a ≤ b → a = b) →
    ∀ a ∈ premScan kept todo, ∀ b ∈ premScan kept todo, a ≤ b → a = b := by
  intro todo
  induction todo with
  | nil => intro kept _ _ _ _ hk a ha b hb; exact hk a ha b hb
  | cons p rest ih =>
      intro kept htk hkk hsort hcross hk
      unfold premScan
      split
      · exact ih kept (fun x hx => htk x (List.mem_cons_of_mem p hx)) hkk
          (List.Pairwise.sublist (List.sublist_cons_self p rest) hsort)
          (fun a ha x hx => hcross a ha x (List.mem_cons_of_mem p hx)) hk
      · rename_i hany
        have hnone : ∀ o ∈ kept, ¬ p ≤ o := by
          intro o ho hle
          rw [Bool.not_eq_true, List.any_eq_false] at hany
          exact absurd (decide_eq_true hle) (Bool.not_eq_true _ ▸ hany o ho)
        refine ih (kept ++ [p]) (fun x hx => htk x (List.mem_cons_of_mem p hx)) ?_
          (List.Pairwise.sublist (List.sublist_cons_self p rest) hsort) ?_ ?_
        · intro a ha
          rcases List.mem_append.mp ha with h | h
          · exact hkk a h
          · rw [List.mem_singleton.mp h]
            exact htk p (List.mem_cons_self p rest)
        · intro a ha x hx
          rcases List.mem_append.mp ha with h | h
          · exact hcross a h x (List.mem_cons_of_mem p hx)
          · rw [List.mem_singleton.mp h]
            exact (List.pairwise_cons.mp hsort).1 x hx
        · intro a ha b hb hab
          rcases List.mem_append.mp ha with ha2 | ha2 <;>
            rcases List.mem_append.mp hb with hb2 | hb2
          · exact hk a ha2 b hb2 hab
          · rw [List.mem_singleton.mp hb2] at hab ⊢
            by_contra hne
            have halt : a < p := lt_of_le_of_ne hab hne
            have hcard := psExtent_card_lt (hkk a ha2) halt
            have hprem := hcross a ha2 p (List.mem_cons_self p rest)
            unfold premLe at hprem
            rcases hprem with h | ⟨h, _⟩ <;> omega
          · rw [List.mem_singleton.mp ha2] at hab
            exact absurd hab (hnone b hb2)
          · rw [List.mem_singleton.mp ha2, List.mem_singleton.mp hb2]

/-- C8: the premaximal patterns of a fitted PatternStructure form an
antichain (no returned pattern is `⊑` another returned one), and every
object-irreducible pattern is `⊑` some returned premaximal pattern. -/
theorem premaximal_correct (objs : List P) :
    (∀ a ∈ iterPremaximalPatterns (objectIrreducibles objs),
     ∀ b ∈ iterPremaximalPatterns (objectIrreducibles objs), a ≤ b → a = b) ∧
    (∀ qe ∈ objectIrreducibles objs,
      ∃ o ∈ iterPremaximalPatterns (objectIrreducibles objs), qe.1 ≤ o) := by
  have hperm : (List.insertionSort (premLe (objectIrreducibles objs))
      ((objectIrreducibles objs).map Prod.fst)).Perm
      ((objectIrreducibles objs).map Prod.fst) :=
    List.perm_insertionSort _ _
  constructor
  · unfold iterPremaximalPatterns
    refine premScan_antichain objs _ [] ?_ ?_ ?_ ?_ ?_
    · intro x hx
      exact hperm.mem_iff.mp hx
    · intro a ha
      cases ha
    · letI : IsTotal P (premLe (objectIrreducibles objs)) :=
        ⟨premLe_total (objectIrreducibles objs)⟩
      letI : IsTrans P (premLe (objectIrreducibles objs)) :=
        ⟨premLe_trans (objectIrreducibles objs)⟩
      exact List.sorted_insertionSort _ _
    · intro a ha
      cases ha
    · intro a ha
      cases ha
  · intro qe hqe
    unfold iterPremaximalPatterns
    refine premScan_covers _ [] qe.1 ?_
    exact hperm.mem_iff.mpr (List.mem_map_of_mem Prod.fst hqe)


/-- C8 witness: the premaximal theorem applied to the one-object mapping
`{0: 5}` over ℕ, at concrete members. -/
theorem premaximal_correct_witness :
    ((5 : ℕ) = 5) ∧
    (∃ o ∈ iterPremaximalPatterns (objectIrreducibles [(5 : ℕ)]),
      ((5 : ℕ), ({0} : Finset ℕ)).1 ≤ o) :=
  ⟨(premaximal_correct [(5 : ℕ)]).1 5 (by decide) 5 (by decide) (le_refl 5),
   (premaximal_correct [(5 : ℕ)]).2 (5, {0}) (by decide)⟩


theorem dfsLoop_nil {F Y : Type} (N : ℕ) (rk : F → ℕ) (step : F → Option (Y × List F))
    (hstep : StepBounded N rk step) : dfsLoop N rk step hstep [] = [] := by
  rw [dfsLoop]

theorem bfsLoop_nil {F Y : Type} (N : ℕ) (rk : F → ℕ) (step : F → Option (Y × List F))
    (hstep : StepBounded N rk step) : bfsLoop N rk step hstep [] = [] := by
  rw [bfsLoop]

theorem dfsLoop_congr {F Y : Type} (N : ℕ) (rk : F → ℕ)
    (step1 step2 : F → Option (Y × List F)) (h12 : ∀ f, step1 f = step2 f)
    (h1 : StepBounded N rk step1) (h2 : StepBounded N rk step2) (stack : List F) :
    dfsLoop N rk step1 h1 stack = dfsLoop N rk step2 h2 stack := by
  rw [dfsLoop_eq_flatMap, dfsLoop_eq_flatMap]
  exact List.flatMap_congr fun f _ => frameRun_congr N rk step1 step2 h12 h1 h2 f

/-- C6: `iter_all_patterns` supports a breadth-first traversal mode besides
the default depth-first one (the flag defaults to depth-first, which is the
source algorithm), and over every atomic-pattern input and support threshold
the two modes yield the same multiset of (pattern, extent) pairs — the same
pairs, differing only in emission order. -/
theorem iterAll_bfs_dfs_same_pairs (pats : List (P × List Bool)) (minPatQ : Option P)
    (k : ℕ) :
    iterAllPatternsModelled pats minPatQ k true = iterAllPatterns pats minPatQ k ∧
    (iterAllPatternsModelled pats minPatQ k true).Perm
      (iterAllPatternsModelled pats minPatQ k false) := by
  refine ⟨rfl, ?_⟩
  show (iterAllPatterns pats minPatQ k).Perm (iterAllPatternsBFS pats minPatQ k)
  unfold iterAllPatterns iterAllPatternsBFS
  cases pats with
  | nil => exact List.Perm.refl []
  | cons p0 rest0 =>
      refine List.Perm.cons _ ?_
      rw [dfsLoop_eq_flatMap]
      exact (bfsLoop_perm_flatMap _ _ _ _ _).symm

/-- C9: when the minimum support of the atomic-pattern CbO enumeration is a
fraction strictly between 0 and 1, it is converted to the absolute count
`⌈object count × fraction⌉` before any extent is filtered: the run equals the
source run with that absolute integer threshold. -/
theorem iterAll_frac_conversion (pats : List (P × List Bool)) (minPatQ : Option P)
    (f : ℚ) (h0 : 0 < f) (h1 : f < 1) :
    iterAllPatternsFrac pats minPatQ f =
      iterAllPatterns pats minPatQ (⌈(iterAllNObjects pats : ℚ) * f⌉.toNat) := by
  cases pats with
  | nil => rfl
  | cons p0 rest0 =>
      simp only [iterAllPatternsFrac, iterAllPatterns, iterAllNObjects]
      congr 1
      have hcast : convertMinSupport (baCount (baOr p0.2 (baNot p0.2))) f =
          ((⌈(baCount (baOr p0.2 (baNot p0.2)) : ℚ) * f⌉.toNat : ℕ) : ℚ) := by
        unfold convertMinSupport
        rw [if_pos ⟨h0, h1⟩]
        have hnn : (0 : ℚ) ≤ (baCount (baOr p0.2 (baNot p0.2)) : ℚ) * f :=
          mul_nonneg (Nat.cast_nonneg _) (le_of_lt h0)
        have hc : (0 : ℤ) ≤ ⌈(baCount (baOr p0.2 (baNot p0.2)) : ℚ) * f⌉ :=
          Int.ceil_nonneg hnn
        exact_mod_cast (Int.toNat_of_nonneg hc).symm
      refine dfsLoop_congr _ _ _ _ ?_ _ _ _
      intro fr
      unfold iterAllStepQ iterAllStep
      rw [hcast]
      simp only [Nat.cast_lt]

/-- C9 witness: the fraction 1/2 over a one-atom input. -/
theorem iterAll_frac_conversion_witness :
    iterAllPatternsFrac [((5 : ℕ), [true])] (some 0) (1 / 2 : ℚ) =
      iterAllPatterns [((5 : ℕ), [true])] (some 0)
        (⌈(iterAllNObjects [((5 : ℕ), [true])] : ℚ) * (1 / 2 : ℚ)⌉.toNat) :=
  iterAll_frac_conversion [((5 : ℕ), [true])] (some 0) (1 / 2)
    (by norm_num) (by norm_num)

theorem baCount_baAnd_le (a : List Bool) : ∀ b : List Bool,
    baCount (baAnd a b) ≤ baCount a := by
  induction a with
  | nil => intro b; simp [baAnd, baCount]
  | cons x xs ih =>
      intro b
      cases b with
      | nil => simp [baAnd, baCount]
      | cons y ys =>
          simp only [baAnd, List.zipWith_cons_cons, baCount, List.count_cons]
          have := ih ys
          unfold baAnd baCount at this
          cases x <;> cases y <;> simp <;> omega

theorem baAnd_right_comm (x : List Bool) : ∀ a b : List Bool,
    baAnd (baAnd x a) b = baAnd (baAnd x b) a := by
  induction x with
  | nil => intro a b; simp [baAnd]
  | cons v vs ih =>
      intro a b
      cases a with
      | nil => cases b <;> simp [baAnd]
      | cons p ps =>
          cases b with
          | nil => simp [baAnd]
          | cons q qs =>
              simp only [baAnd, List.zipWith_cons_cons, List.cons.injEq]
              refine ⟨by cases v <;> cases p <;> cases q <;> rfl, ?_⟩
              have := ih ps qs
              unfold baAnd at this
              exact this

theorem mem_finsetAsc {e : Finset ℕ} {i : ℕ} : i ∈ finsetAsc e ↔ i ∈ e := by
  unfold finsetAsc
  simp only [List.mem_filter, List.mem_range, decide_eq_true_eq]
  constructor
  · exact fun h => h.2
  · intro h
    refine ⟨?_, h⟩
    have hle : i ≤ e.sup id := @Finset.le_sup ℕ ℕ _ _ e id i h
    omega

theorem nodup_finsetAsc (e : Finset ℕ) : (finsetAsc e).Nodup :=
  List.Nodup.filter _ (List.nodup_range _)

theorem finsetAsc_perm_toList (e : Finset ℕ) : (finsetAsc e).Perm e.toList := by
  apply List.perm_of_nodup_nodup_toFinset_eq (nodup_finsetAsc e) e.nodup_toList
  ext i
  simp only [List.mem_toFinset, mem_finsetAsc, Finset.mem_toList]

theorem iterAllExtent_insert (pats : List (P × List Bool)) (total : List Bool)
    {S : Finset ℕ} {j : ℕ} (hj : j ∉ S) :
    iterAllExtent pats total (insert j S) =
      baAnd (iterAllExtent pats total S) (extAtBA pats j) := by
  unfold iterAllExtent
  have hperm : finsetAsc (insert j S) |>.Perm (finsetAsc S ++ [j]) := by
    refine ((finsetAsc_perm_toList _).trans ?_).trans
      ((List.perm_append_singleton j _).symm.trans
        (List.Perm.append_right [j] (finsetAsc_perm_toList _).symm))
    exact (Finset.toList_insert hj).trans (List.Perm.refl _)
  rw [List.Perm.foldl_eq' hperm (fun x _ y _ z => baAnd_right_comm z (extAtBA pats x) (extAtBA pats y)) total]
  rw [List.foldl_append]
  rfl

theorem iterAllExtent_count_union_le (pats : List (P × List Bool)) (total : List Bool)
    (S : Finset ℕ) (U : Finset ℕ) :
    baCount (iterAllExtent pats total (S ∪ U)) ≤ baCount (iterAllExtent pats total S) := by
  induction U using Finset.induction_on with
  | empty => simp
  | insert hjU ih =>
      rename_i j U
      rw [Finset.union_insert]
      by_cases hjm : j ∈ S ∪ U
      · rw [Finset.insert_eq_self.mpr hjm]
        exact ih
      · rw [iterAllExtent_insert pats total hjm]
        exact le_trans (baCount_baAnd_le _ _) ih

theorem iterAllExtent_count_subset (pats : List (P × List Bool)) (total : List Bool)
    {S T : Finset ℕ} (hST : S ⊆ T) :
    baCount (iterAllExtent pats total T) ≤ baCount (iterAllExtent pats total S) := by
  have : S ∪ T = T := Finset.union_eq_right.mpr hST
  rw [← this]
  exact iterAllExtent_count_union_le pats total S T




theorem filter_flatMap {A B : Type} (l : List A) (f : A → List B) (p : B → Bool) :
    (l.flatMap f).filter p = l.flatMap fun a => (f a).filter p := by
  induction l with
  | nil => rfl
  | cons a rest ih =>
      rw [List.flatMap_cons, List.flatMap_cons, List.filter_append, ih]

theorem iterAllStep_zero_none_iff (pats : List (P × List Bool)) (minPat : P)
    (total : List Bool) (fr : Finset ℕ × ℕ) :
    iterAllStep pats minPat total 0 fr = none ↔
      iterAllCanonFail pats fr.1 fr.2
        (iterAllPattern pats minPat (insert fr.2 fr.1)) = true := by
  unfold iterAllStep
  rw [if_neg (Nat.not_lt_zero _)]
  split
  · rename_i h
    simp [h]
  · rename_i h
    simp [h]

theorem iterAllStep_eq_zero_of_le (pats : List (P × List Bool)) (minPat : P)
    (total : List Bool) (k : ℕ) (fr : Finset ℕ × ℕ)
    (hk : k ≤ baCount (iterAllExtent pats total (insert fr.2 fr.1))) :
    iterAllStep pats minPat total k fr = iterAllStep pats minPat total 0 fr := by
  unfold iterAllStep
  rw [if_neg (not_lt.mpr hk), if_neg (Nat.not_lt_zero _)]

theorem iterAllStep_none_of_lt (pats : List (P × List Bool)) (minPat : P)
    (total : List Bool) (k : ℕ) (fr : Finset ℕ × ℕ)
    (hk : baCount (iterAllExtent pats total (insert fr.2 fr.1)) < k) :
    iterAllStep pats minPat total k fr = none := by
  unfold iterAllStep
  rw [if_pos hk]

theorem iterAllStep_zero_some (pats : List (P × List Bool)) (minPat : P)
    (total : List Bool) {fr : Finset ℕ × ℕ} {y : P × List Bool}
    {cs : List (Finset ℕ × ℕ)}
    (h : iterAllStep pats minPat total 0 fr = some (y, cs)) :
    y = (iterAllPattern pats minPat (insert fr.2 fr.1),
        iterAllExtent pats total (insert fr.2 fr.1)) ∧
      cs = iterAllChildren pats (iterAllClosure pats (insert fr.2 fr.1) fr.2
        (iterAllPattern pats minPat (insert fr.2 fr.1))) fr.2 := by
  unfold iterAllStep at h
  rw [if_neg (Nat.not_lt_zero _)] at h
  split at h
  · exact absurd h (by simp)
  · simp only [Option.some.injEq, Prod.mk.injEq] at h
    exact ⟨h.1.symm, h.2.symm⟩

theorem mem_iterAllChildren (pats : List (P × List Bool)) {closure : Finset ℕ}
    {toAdd : ℕ} {c : Finset ℕ × ℕ} (hc : c ∈ iterAllChildren pats closure toAdd) :
    c.1 = closure ∧ toAdd < c.2 ∧ c.2 < pats.length := by
  unfold iterAllChildren at hc
  rw [List.mem_map] at hc
  obtain ⟨i, hi, rfl⟩ := hc
  rw [List.mem_filter] at hi
  have h1 : i < pats.length := List.mem_range.mp hi.1
  have h2 := hi.2
  simp only [Bool.and_eq_true, decide_eq_true_eq] at h2
  exact ⟨rfl, h2.1, h1⟩

theorem frameRun_count_le (pats : List (P × List Bool)) (minPat : P)
    (total : List Bool) :
    ∀ fr : Finset ℕ × ℕ, ∀ pe ∈ frameRun pats.length (fun f => f.2 + 1)
      (iterAllStep pats minPat total 0) (iterAllStepBounded pats minPat total 0) fr,
    baCount pe.2 ≤ baCount (iterAllExtent pats total (insert fr.2 fr.1)) := by
  intro fr
  induction fr using frameRun.induct pats.length (fun f => f.2 + 1)
      (iterAllStep pats minPat total 0) (iterAllStepBounded pats minPat total 0) with
  | case1 fr hs =>
      intro pe hpe
      rw [frameRun_none _ _ _ _ fr hs] at hpe
      cases hpe
  | case2 fr y cs hs ih =>
      intro pe hpe
      rw [frameRun_some _ _ _ _ fr y cs hs] at hpe
      obtain ⟨hy, hcs⟩ := iterAllStep_zero_some pats minPat total hs
      rcases List.mem_cons.mp hpe with rfl | hpe2
      · rw [hy]
      · rw [List.mem_flatMap] at hpe2
        obtain ⟨c, hcmem, hpemem⟩ := hpe2
        have hle := ih ⟨c, hcmem⟩ pe hpemem
        refine le_trans hle (iterAllExtent_count_subset pats total ?_)
        subst hcs
        obtain ⟨hc1, hc2, _⟩ := mem_iterAllChildren pats hcmem
        intro x hx
        rcases Finset.mem_insert.mp hx with rfl | hx2
        · refine Finset.mem_insert.mpr (Or.inr ?_)
          rw [hc1]
          unfold iterAllClosure
          exact Finset.mem_union_left _ (Finset.mem_insert_self _ _)
        · refine Finset.mem_insert.mpr (Or.inr ?_)
          rw [hc1]
          unfold iterAllClosure
          exact Finset.mem_union_left _ (Finset.mem_insert_of_mem hx2)




theorem frameRun_support_filter (pats : List (P × List Bool)) (minPat : P)
    (total : List Bool) (k : ℕ) :
    ∀ (m : ℕ) (fr : Finset ℕ × ℕ), pats.length + 1 - fr.2 ≤ m →
    frameRun pats.length (fun f => f.2 + 1) (iterAllStep pats minPat total k)
        (iterAllStepBounded pats minPat total k) fr =
      (frameRun pats.length (fun f => f.2 + 1) (iterAllStep pats minPat total 0)
        (iterAllStepBounded pats minPat total 0) fr).filter
        fun pe => decide (k ≤ baCount pe.2) := by
  intro m
  induction m with
  | zero =>
      intro fr hm
      rcases hs0 : iterAllStep pats minPat total 0 fr with _ | ⟨y, cs⟩
      · have hcanon := (iterAllStep_zero_none_iff pats minPat total fr).mp hs0
        have hsK : iterAllStep pats minPat total k fr = none := by
          simp [iterAllStep, hcanon]
        rw [frameRun_none _ _ _ _ fr hsK, frameRun_none _ _ _ _ fr hs0]
        rfl
      · obtain ⟨hy, hcs⟩ := iterAllStep_zero_some pats minPat total hs0
        by_cases hk : baCount (iterAllExtent pats total (insert fr.2 fr.1)) < k
        · have hsK := iterAllStep_none_of_lt pats minPat total k fr hk
          rw [frameRun_none _ _ _ _ fr hsK, frameRun_some _ _ _ _ fr y cs hs0]
          symm
          rw [List.filter_eq_nil_iff]
          intro pe hpe
          rcases List.mem_cons.mp hpe with rfl | hpe2
          · simp only [decide_eq_true_eq, not_le]
            rw [hy]
            exact hk
          · have hle := frameRun_count_le pats minPat total fr pe
              (by rw [frameRun_some _ _ _ _ fr y cs hs0]
                  exact List.mem_cons_of_mem _ hpe2)
            simp only [decide_eq_true_eq, not_le]
            omega
        · have hsK : iterAllStep pats minPat total k fr = some (y, cs) := by
            rw [iterAllStep_eq_zero_of_le pats minPat total k fr (not_lt.mp hk)]
            exact hs0
          rw [frameRun_some _ _ _ _ fr y cs hsK, frameRun_some _ _ _ _ fr y cs hs0]
          have hky : (fun pe : P × List Bool => decide (k ≤ baCount pe.2)) y = true := by
            simp only [decide_eq_true_eq]
            rw [hy]
            exact not_lt.mp hk
          rw [List.filter_cons, if_pos hky]
          congr 1
          rw [filter_flatMap]
          apply List.flatMap_congr
          intro c hc
          exfalso
          obtain ⟨hb1, hb2⟩ := (iterAllStepBounded pats minPat total 0 fr y cs hs0).2 c hc
          have hb3 : fr.2 + 1 < c.2 + 1 := hb1
          have hb4 : c.2 + 1 ≤ pats.length := hb2
          omega
  | succ m ih =>
      intro fr hm
      rcases hs0 : iterAllStep pats minPat total 0 fr with _ | ⟨y, cs⟩
      · have hcanon := (iterAllStep_zero_none_iff pats minPat total fr).mp hs0
        have hsK : iterAllStep pats minPat total k fr = none := by
          simp [iterAllStep, hcanon]
        rw [frameRun_none _ _ _ _ fr hsK, frameRun_none _ _ _ _ fr hs0]
        rfl
      · obtain ⟨hy, hcs⟩ := iterAllStep_zero_some pats minPat total hs0
        by_cases hk : baCount (iterAllExtent pats total (insert fr.2 fr.1)) < k
        · have hsK := iterAllStep_none_of_lt pats minPat total k fr hk
          rw [frameRun_none _ _ _ _ fr hsK, frameRun_some _ _ _ _ fr y cs hs0]
          symm
          rw [List.filter_eq_nil_iff]
          intro pe hpe
          rcases List.mem_cons.mp hpe with rfl | hpe2
          · simp only [decide_eq_true_eq, not_le]
            rw [hy]
            exact hk
          · have hle := frameRun_count_le pats minPat total fr pe
              (by rw [frameRun_some _ _ _ _ fr y cs hs0]
                  exact List.mem_cons_of_mem _ hpe2)
            simp only [decide_eq_true_eq, not_le]
            omega
        · have hsK : iterAllStep pats minPat total k fr = some (y, cs) := by
            rw [iterAllStep_eq_zero_of_le pats minPat total k fr (not_lt.mp hk)]
            exact hs0
          rw [frameRun_some _ _ _ _ fr y cs hsK, frameRun_some _ _ _ _ fr y cs hs0]
          have hky : (fun pe : P × List Bool => decide (k ≤ baCount pe.2)) y = true := by
            simp only [decide_eq_true_eq]
            rw [hy]
            exact not_lt.mp hk
          rw [List.filter_cons, if_pos hky]
          congr 1
          rw [filter_flatMap]
          apply List.flatMap_congr
          intro c hc
          obtain ⟨hb1, hb2⟩ := (iterAllStepBounded pats minPat total 0 fr y cs hs0).2 c hc
          have hb3 : fr.2 + 1 < c.2 + 1 := hb1
          have hb4 : c.2 + 1 ≤ pats.length := hb2
          exact ih c (by omega)

/-- C4 amended: for every ordered atomic-pattern mapping and every absolute
threshold `k` not exceeding the object count, `iter_all_patterns` with
`min_support=k` yields exactly the pairs of the `min_support=0` run whose
extent popcount is at least `k` — the filtered sublist, with identical order
and multiplicities. (For `k` above the object count the claim fails: the
initial `(min_pattern, total extent)` pair is yielded unconditionally.) -/
theorem iterAll_min_support_filter (pats : List (P × List Bool)) (minPatQ : Option P)
    (k : ℕ) (hk : k ≤ iterAllNObjects pats) :
    iterAllPatterns pats minPatQ k =
      (iterAllPatterns pats minPatQ 0).filter fun pe => decide (k ≤ baCount pe.2) := by
  cases pats with
  | nil => rfl
  | cons p0 rest0 =>
      simp only [iterAllPatterns]
      have hhead : (fun pe : P × List Bool => decide (k ≤ baCount pe.2))
          (match minPatQ with
            | none => rest0.foldl (fun a q => a ⊓ q.1) p0.1
            | some m => m, baOr p0.2 (baNot p0.2)) = true := by
        simp only [decide_eq_true_eq]
        simpa [iterAllNObjects] using hk
      rw [List.filter_cons, if_pos hhead]
      congr 1
      rw [dfsLoop_eq_flatMap, dfsLoop_eq_flatMap, filter_flatMap]
      apply List.flatMap_congr
      intro fr hfr
      exact frameRun_support_filter (p0 :: rest0) _ _ k ((p0 :: rest0).length + 1) fr
        (by omega)

/-- C4 witness: one atom over one object with threshold `k = 1`. -/
theorem iterAll_min_support_filter_witness :
    iterAllPatterns [((5 : ℕ), [true])] (some 0) 1 =
      (iterAllPatterns [((5 : ℕ), [true])] (some 0) 0).filter
        fun pe => decide (1 ≤ baCount pe.2) :=
  iterAll_min_support_filter [((5 : ℕ), [true])] (some 0) 1 (by decide)

/-- C4 counterexample: with one atomic pattern over one object and
`min_support = 2` (above the object count), the run still yields the
unconditional initial pair `(min_pattern, total extent)`, while the filtered
`min_support=0` run is empty. -/
theorem iterAll_min_support_counterexample :
    iterAllPatterns [((5 : ℕ), [true])] (some 0) 2 ≠
      (iterAllPatterns [((5 : ℕ), [true])] (some 0) 0).filter
        fun pe => decide (2 ≤ baCount pe.2) := by
  have h2 : iterAllPatterns [((5 : ℕ), [true])] (some 0) 2 = [(0, [true])] := by
    simp only [iterAllPatterns, List.length_cons, List.length_nil, List.range_succ,
      List.range_zero, List.nil_append, List.map_cons, List.map_nil]
    rw [dfsLoop_cons_none _ _ _ _ _ _ (by decide), dfsLoop_nil]
    decide
  have h0 : iterAllPatterns [((5 : ℕ), [true])] (some 0) 0 =
      [(0, [true]), (5, [true])] := by
    simp only [iterAllPatterns, List.length_cons, List.length_nil, List.range_succ,
      List.range_zero, List.nil_append, List.map_cons, List.map_nil]
    rw [dfsLoop_cons_some _ _ _ _ _ _ ((5 : ℕ), [true]) [] (by decide),
      List.nil_append, dfsLoop_nil]
    decide
  rw [h2, h0]
  decide

/-- C7 amended: when a state `(K, t)` of `iter_intents_via_ocbo` passes the
canonical-form test, the yielded intent is the intent of the proto-extent, and
exactly one child state is pushed per object index strictly above `t` that is
NOT a member of the closure extent `E` (each child carrying `E` as its new
known extent), in ascending index order in the continuation — the source
pushes them in reverse so the lowest index is processed first. -/
theorem ocbo_children_correct (objs : List P) (K : Finset ℕ) (t : ℤ)
    (rest : List (Finset ℕ × ℤ)) (y : P) (cs : List (Finset ℕ × ℤ))
    (h : ocboStep objs (K, t) = some (y, cs)) :
    y = intention objs (ocboProto (K, t)) ∧
    cs = ((List.range objs.length).filter fun g =>
        decide (g ∉ extension objs y) && decide (t + 1 ≤ (g : ℤ))).map
      (fun g => (extension objs y, Int.ofNat g)) ∧
    dfsLoop objs.length ocboRk (ocboStep objs) (ocboStepBounded objs) ((K, t) :: rest) =
      y :: dfsLoop objs.length ocboRk (ocboStep objs) (ocboStepBounded objs) (cs ++ rest) := by
  have h2 := h
  unfold ocboStep at h2
  split at h2
  · exact absurd h2 (by simp)
  · simp only [Option.some.injEq, Prod.mk.injEq] at h2
    obtain ⟨hy, hcs⟩ := h2
    refine ⟨hy.symm, ?_, dfsLoop_cons_some _ _ _ _ _ _ y cs h⟩
    rw [← hcs, ← hy]
    unfold ocboChildren searchNotFrom
    rfl

/-- C7 witness: a single object with pattern `0 : ℕ`; the seed state passes
the test, yields the only pattern and pushes no children. -/
theorem ocbo_children_correct_witness :
    ocboStep [(0 : ℕ)] ((∅ : Finset ℕ), (-1 : ℤ)) = some ((0 : ℕ), ([] : List (Finset ℕ × ℤ))) ∧
    ((0 : ℕ) = intention [(0 : ℕ)] (ocboProto ((∅ : Finset ℕ), (-1 : ℤ))) ∧
      ([] : List (Finset ℕ × ℤ)) = ((List.range [(0 : ℕ)].length).filter fun g =>
          decide (g ∉ extension [(0 : ℕ)] (0 : ℕ)) && decide ((-1 : ℤ) + 1 ≤ (g : ℤ))).map
        (fun g => (extension [(0 : ℕ)] (0 : ℕ), Int.ofNat g)) ∧
      dfsLoop [(0 : ℕ)].length ocboRk (ocboStep [(0 : ℕ)]) (ocboStepBounded [(0 : ℕ)])
          [(((∅ : Finset ℕ), (-1 : ℤ)))] =
        (0 : ℕ) :: dfsLoop [(0 : ℕ)].length ocboRk (ocboStep [(0 : ℕ)])
          (ocboStepBounded [(0 : ℕ)]) ([] ++ [])) :=
  ⟨by decide, ocbo_children_correct [(0 : ℕ)] ∅ (-1) [] 0 [] (by decide)⟩

/-- C7 counterexample: with object patterns `[{0}, {0}, {1}]` over `Fin 2` and
the state `(∅, 0)`, the source pushes the child at index `2` (the object NOT
in the closure extent `{0, 1}`), whereas the claimed rule — index in the
closure extent but not in the known extent — would push the child at index
`1`; the two child lists differ. -/
theorem ocbo_children_counterexample :
    (ocboStep [({0} : Finset (Fin 2)), {0}, {1}] ((∅ : Finset ℕ), (0 : ℤ))).map Prod.snd =
        some [((({0, 1} : Finset ℕ)), (2 : ℤ))] ∧
      ((List.range 3).filter fun g =>
          decide (g ∈ ({0, 1} : Finset ℕ)) && decide (g ∉ (∅ : Finset ℕ)) &&
            decide ((0 : ℤ) < (g : ℤ))).map
        (fun g => (({0, 1} : Finset ℕ), Int.ofNat g)) =
        [((({0, 1} : Finset ℕ)), (1 : ℤ))] ∧
      [((({0, 1} : Finset ℕ)), (2 : ℤ))] ≠ [((({0, 1} : Finset ℕ)), (1 : ℤ))] := by
  refine ⟨by decide, by decide, by decide⟩

theorem mem_extension {objs : List P} {p : P} {g : ℕ} :
    g ∈ extension objs p ↔ ∃ q, objs[g]? = some q ∧ p ≤ q := by
  unfold extension
  simp only [List.mem_toFinset, List.mem_map, List.mem_filter,
    List.mem_enum_iff_getElem?, decide_eq_true_eq]
  constructor
  · rintro ⟨⟨i, q⟩, ⟨hget, hle⟩, rfl⟩
    exact ⟨q, hget, hle⟩
  · rintro ⟨q, hget, hle⟩
    exact ⟨(g, q), ⟨hget, hle⟩, rfl⟩

theorem extension_subset_range (objs : List P) (p : P) :
    extension objs p ⊆ Finset.range objs.length := by
  intro g hg
  rw [mem_extension] at hg
  obtain ⟨q, hget, _⟩ := hg
  obtain ⟨hlt, _⟩ := List.getElem?_eq_some.mp hget
  exact Finset.mem_range.mpr hlt

theorem mem_intention_selected {objs : List P} {s : Finset ℕ} {q : P} :
    q ∈ (objs.enum.filter fun gp => decide (gp.1 ∈ s)).map Prod.snd ↔
      ∃ g, g ∈ s ∧ objs[g]? = some q := by
  simp only [List.mem_map, List.mem_filter, List.mem_enum_iff_getElem?,
    decide_eq_true_eq]
  constructor
  · rintro ⟨⟨i, r⟩, ⟨hget, hmem⟩, rfl⟩
    exact ⟨i, hmem, hget⟩
  · rintro ⟨g, hmem, hget⟩
    exact ⟨(g, q), ⟨hget, hmem⟩, rfl⟩

theorem intention_le_of_mem {objs : List P} {s : Finset ℕ} {g : ℕ} {q : P}
    (hg : g ∈ s) (hget : objs[g]? = some q) : intention objs s ≤ q := by
  unfold intention
  have hmem : q ∈ (objs.enum.filter fun gp => decide (gp.1 ∈ s)).map Prod.snd :=
    mem_intention_selected.mpr ⟨g, hg, hget⟩
  rcases hflt : (objs.enum.filter fun gp => decide (gp.1 ∈ s)).map Prod.snd with _ | ⟨p, ps⟩
  · rw [hflt] at hmem
    cases hmem
  · rw [hflt]
    rw [hflt] at hmem
    rcases List.mem_cons.mp hmem with rfl | hmem2
    · exact foldl_inf_le_init ps q
    · exact foldl_inf_le_mem hmem2 p

theorem le_intention {objs : List P} {s : Finset ℕ} {c : P}
    (hne : ∃ g q, g ∈ s ∧ objs[g]? = some q)
    (h : ∀ g q, g ∈ s → objs[g]? = some q → c ≤ q) : c ≤ intention objs s := by
  unfold intention
  obtain ⟨g0, q0, hg0, hget0⟩ := hne
  have hmem : q0 ∈ (objs.enum.filter fun gp => decide (gp.1 ∈ s)).map Prod.snd :=
    mem_intention_selected.mpr ⟨g0, hg0, hget0⟩
  rcases hflt : (objs.enum.filter fun gp => decide (gp.1 ∈ s)).map Prod.snd with _ | ⟨p, ps⟩
  · rw [hflt] at hmem
    cases hmem
  · rw [hflt]
    have hall : ∀ x ∈ p :: ps, c ≤ x := by
      intro x hx
      rw [← hflt, mem_intention_selected] at hx
      obtain ⟨g, hgmem, hgget⟩ := hx
      exact h g x hgmem hgget
    exact le_foldl_inf (hall p (List.mem_cons_self p ps))
      (fun x hx => hall x (List.mem_cons_of_mem p hx))

theorem getElem_le_intention_empty {objs : List P} {g : ℕ} {q : P}
    (hget : objs[g]? = some q) : q ≤ intention objs (∅ : Finset ℕ) := by
  unfold intention
  have hsel : (objs.enum.filter fun gp => decide (gp.1 ∈ (∅ : Finset ℕ))).map Prod.snd
      = [] := by
    simp [List.filter_eq_nil_iff]
  rw [hsel]
  obtain ⟨hlt, hq⟩ := List.getElem?_eq_some.mp hget
  cases objs with
  | nil => exact absurd hlt (by simp)
  | cons q0 rest =>
      have hqmem : q ∈ q0 :: rest := by
        rw [← hq]
        exact List.getElem_mem hlt
      rcases List.mem_cons.mp hqmem with rfl | h2
      · exact init_le_foldl_sup rest q
      · exact mem_le_foldl_sup h2 q0

theorem subset_cl {objs : List P} {S : Finset ℕ}
    (hS : S ⊆ Finset.range objs.length) :
    S ⊆ extension objs (intention objs S) := by
  intro g hg
  have hlt : g < objs.length := Finset.mem_range.mp (hS hg)
  have hget : objs[g]? = some objs[g] := List.getElem?_eq_getElem hlt
  rw [mem_extension]
  exact ⟨objs[g], hget, intention_le_of_mem hg hget⟩

theorem extension_anti {objs : List P} {p q : P} (h : p ≤ q) :
    extension objs q ⊆ extension objs p := by
  intro g hg
  rw [mem_extension] at hg ⊢
  obtain ⟨r, hget, hle⟩ := hg
  exact ⟨r, hget, le_trans h hle⟩

theorem intention_anti {objs : List P} {S T : Finset ℕ}
    (hST : S ⊆ T) (hS : ∃ g ∈ S, g < objs.length) :
    intention objs T ≤ intention objs S := by
  obtain ⟨g0, hg0, hlt0⟩ := hS
  refine le_intention ⟨g0, objs[g0], hg0, List.getElem?_eq_getElem hlt0⟩ ?_
  intro g q hg hget
  exact intention_le_of_mem (hST hg) hget

theorem intention_cl {objs : List P} {S : Finset ℕ}
    (hS : S ⊆ Finset.range objs.length) :
    intention objs (extension objs (intention objs S)) = intention objs S := by
  by_cases hne : ∃ g ∈ S, g < objs.length
  · obtain ⟨g0, hg0, hlt0⟩ := hne
    have hget0 : objs[g0]? = some objs[g0] := List.getElem?_eq_getElem hlt0
    have hg0E : g0 ∈ extension objs (intention objs S) := subset_cl hS hg0
    apply le_antisymm
    · exact intention_anti (subset_cl hS) ⟨g0, hg0, hlt0⟩
    · refine le_intention ⟨g0, objs[g0], hg0E, hget0⟩ ?_
      intro g q hgE hget
      rw [mem_extension] at hgE
      obtain ⟨r, hget2, hler⟩ := hgE
      rw [hget] at hget2
      cases hget2
      exact hler
  · have hSempty : S = ∅ := by
      ext g
      simp only [Finset.not_mem_empty, iff_false]
      intro hg
      exact hne ⟨g, hg, Finset.mem_range.mp (hS hg)⟩
    subst hSempty
    rcases Finset.eq_empty_or_nonempty
        (extension objs (intention objs (∅ : Finset ℕ))) with hE0 | ⟨g0, hg0⟩
    · rw [hE0]
    · have hlt0 : g0 < objs.length :=
        Finset.mem_range.mp (extension_subset_range objs _ hg0)
      have hget0 : objs[g0]? = some objs[g0] := List.getElem?_eq_getElem hlt0
      apply le_antisymm
      · exact le_trans (intention_le_of_mem hg0 hget0)
          (getElem_le_intention_empty hget0)
      · refine le_intention ⟨g0, objs[g0], hg0, hget0⟩ ?_
        intro g q hgE hget
        rw [mem_extension] at hgE
        obtain ⟨r, hget2, hler⟩ := hgE
        rw [hget] at hget2
        cases hget2
        exact hler

theorem cl_subset_closed {objs : List P} {S E : Finset ℕ}
    (hSE : S ⊆ E) (hS : S ⊆ Finset.range objs.length)
    (hEcl : extension objs (intention objs E) = E) :
    extension objs (intention objs S) ⊆ E := by
  rcases Finset.eq_empty_or_nonempty E with hEe | ⟨g0, hg0⟩
  · subst hEe
    have hSe : S = ∅ := Finset.subset_empty.mp hSE
    subst hSe
    intro x hx
    rw [hEcl] at hx
    exact hx
  · have hle : intention objs E ≤ intention objs S := by
      rcases Finset.eq_empty_or_nonempty S with hSe | ⟨g1, hg1⟩
      · subst hSe
        have hlt0 : g0 < objs.length := by
          have := extension_subset_range objs (intention objs E)
          rw [hEcl] at this
          exact Finset.mem_range.mp (this hg0)
        exact le_trans (intention_le_of_mem hg0 (List.getElem?_eq_getElem hlt0))
          (getElem_le_intention_empty (List.getElem?_eq_getElem hlt0))
      · exact intention_anti hSE ⟨g1, hg1, Finset.mem_range.mp (hS hg1)⟩
    calc extension objs (intention objs S)
        ⊆ extension objs (intention objs E) := extension_anti hle
      _ = E := hEcl




theorem ocboStep_some {objs : List P} {f : Finset ℕ × ℤ} {y : P}
    {cs : List (Finset ℕ × ℤ)} (h : ocboStep objs f = some (y, cs)) :
    ocboSkip (ocboProto f) (extension objs (intention objs (ocboProto f))) f.2 = false ∧
      y = intention objs (ocboProto f) ∧
      cs = ocboChildren objs (extension objs (intention objs (ocboProto f))) f.2 := by
  unfold ocboStep at h
  split at h
  · exact absurd h (by simp)
  · rename_i hcond
    simp only [Option.some.injEq, Prod.mk.injEq] at h
    exact ⟨by simpa using hcond, h.1.symm, h.2.symm⟩

theorem ocboStep_none {objs : List P} {f : Finset ℕ × ℤ}
    (h : ocboStep objs f = none) :
    ocboSkip (ocboProto f) (extension objs (intention objs (ocboProto f))) f.2 = true := by
  unfold ocboStep at h
  split at h
  · rename_i hcond
    exact hcond
  · exact absurd h (by simp)

theorem ocboProto_ofNat (E : Finset ℕ) (g : ℕ) :
    ocboProto (E, Int.ofNat g) = insert g E := rfl

theorem subset_proto (f : Finset ℕ × ℤ) : f.1 ⊆ ocboProto f := by
  unfold ocboProto
  split
  · exact Finset.subset_insert _ _
  · exact Finset.Subset.refl _

theorem proto_subset_range {objs : List P} {f : Finset ℕ × ℤ}
    (hgood : ocboGoodState objs f) : ocboProto f ⊆ Finset.range objs.length := by
  unfold ocboProto
  split
  · rename_i hpos
    rcases hgood.2 with h1 | ⟨h2a, h2b⟩
    · rw [h1] at hpos
      exact absurd hpos (by norm_num)
    · refine Finset.insert_subset_iff.mpr ⟨?_, hgood.1⟩
      rw [Finset.mem_range]
      omega
  · exact hgood.1

theorem mem_ocboFamily {objs : List P} {f : Finset ℕ × ℤ} {E : Finset ℕ} :
    E ∈ ocboFamily objs f ↔
      E ⊆ Finset.range objs.length ∧
        extension objs (intention objs E) = E ∧ ocboProto f ⊆ E ∧
        ∀ x ∈ E, (x : ℤ) < f.2 → x ∈ f.1 := by
  unfold ocboFamily
  simp only [Finset.mem_filter, Finset.mem_powerset]

theorem mem_searchNotFrom {extent : Finset ℕ} {n : ℕ} {start : ℤ} {g : ℕ} :
    g ∈ searchNotFrom extent n start ↔ g < n ∧ g ∉ extent ∧ start ≤ (g : ℤ) := by
  unfold searchNotFrom
  simp only [List.mem_filter, List.mem_range, Bool.and_eq_true, decide_eq_true_eq]

theorem nodup_searchNotFrom (extent : Finset ℕ) (n : ℕ) (start : ℤ) :
    (searchNotFrom extent n start).Nodup :=
  List.Nodup.filter _ (List.nodup_range n)

theorem pairwise_lt_searchNotFrom (extent : Finset ℕ) (n : ℕ) (start : ℤ) :
    (searchNotFrom extent n start).Pairwise (· < ·) :=
  List.Pairwise.filter _ (List.pairwise_lt_range n)

theorem ocboFamily_skip_empty {objs : List P} {f : Finset ℕ × ℤ}
    (hgood : ocboGoodState objs f)
    (hskip : ocboSkip (ocboProto f)
      (extension objs (intention objs (ocboProto f))) f.2 = true) :
    ocboFamily objs f = ∅ := by
  rw [Finset.eq_empty_iff_forall_not_mem]
  intro E hE
  rw [mem_ocboFamily] at hE
  obtain ⟨hEr, hEcl, hEproto, hElex⟩ := hE
  unfold ocboSkip at hskip
  rw [Bool.and_eq_true, decide_eq_true_eq, decide_eq_true_eq] at hskip
  obtain ⟨hpos, g, hgmem, hglt⟩ := hskip
  rw [Finset.mem_sdiff] at hgmem
  have hgE : g ∈ E :=
    cl_subset_closed hEproto (proto_subset_range hgood) hEcl hgmem.1
  exact hgmem.2 (subset_proto f (hElex g hgE hglt))

theorem clProto_mem_family {objs : List P} {f : Finset ℕ × ℤ}
    (hgood : ocboGoodState objs f)
    (hskip : ocboSkip (ocboProto f)
      (extension objs (intention objs (ocboProto f))) f.2 = false) :
    extension objs (intention objs (ocboProto f)) ∈ ocboFamily objs f := by
  rw [mem_ocboFamily]
  refine ⟨extension_subset_range objs _, ?_, subset_cl (proto_subset_range hgood), ?_⟩
  · rw [intention_cl (proto_subset_range hgood)]
  · intro x hx hxlt
    have hpos2 : 0 ≤ f.2 := by omega
    unfold ocboSkip at hskip
    simp only [Bool.and_eq_false_iff, decide_eq_false_iff_not] at hskip
    rcases hskip with h1 | h2
    · exact absurd hpos2 h1
    · by_cases hxp : x ∈ ocboProto f
      · unfold ocboProto at hxp
        rw [if_pos hpos2] at hxp
        rcases Finset.mem_insert.mp hxp with heq | hxK
        · exfalso
          rw [heq] at hxlt
          omega
        · exact hxK
      · exact absurd ⟨x, Finset.mem_sdiff.mpr ⟨hx, hxp⟩, hxlt⟩ h2

theorem family_child_subset {objs : List P} {f : Finset ℕ × ℤ}
    (hgood : ocboGoodState objs f)
    (hskip : ocboSkip (ocboProto f)
      (extension objs (intention objs (ocboProto f))) f.2 = false) {g : ℕ}
    (hg : g ∈ searchNotFrom (extension objs (intention objs (ocboProto f)))
      objs.length (f.2 + 1)) {E : Finset ℕ}
    (hE : E ∈ ocboFamily objs
      (extension objs (intention objs (ocboProto f)), Int.ofNat g)) :
    E ∈ ocboFamily objs f ∧ E ≠ extension objs (intention objs (ocboProto f)) := by
  rw [mem_searchNotFrom] at hg
  obtain ⟨hgn, hgEstar, hgt⟩ := hg
  rw [mem_ocboFamily] at hE
  obtain ⟨hEr, hEcl, hEproto, hElex⟩ := hE
  rw [ocboProto_ofNat] at hEproto
  have hEstar_mem := clProto_mem_family hgood hskip
  rw [mem_ocboFamily] at hEstar_mem
  obtain ⟨_, _, _, hEstarlex⟩ := hEstar_mem
  constructor
  · rw [mem_ocboFamily]
    refine ⟨hEr, hEcl, ?_, ?_⟩
    · exact Finset.Subset.trans (subset_cl (proto_subset_range hgood))
        (Finset.Subset.trans (Finset.subset_insert g _) hEproto)
    · intro x hxE hxlt
      have hxg : (x : ℤ) < (g : ℤ) := by omega
      exact hEstarlex x (hElex x hxE hxg) hxlt
  · intro heq
    exact hgEstar (heq ▸ hEproto (Finset.mem_insert_self g _))

theorem family_decomp {objs : List P} {f : Finset ℕ × ℤ}
    (hgood : ocboGoodState objs f)
    (hskip : ocboSkip (ocboProto f)
      (extension objs (intention objs (ocboProto f))) f.2 = false) {E : Finset ℕ}
    (hE : E ∈ ocboFamily objs f)
    (hne : E ≠ extension objs (intention objs (ocboProto f))) :
    ∃ g ∈ searchNotFrom (extension objs (intention objs (ocboProto f)))
        objs.length (f.2 + 1),
      E ∈ ocboFamily objs
        (extension objs (intention objs (ocboProto f)), Int.ofNat g) := by
  rw [mem_ocboFamily] at hE
  obtain ⟨hEr, hEcl, hEproto, hElex⟩ := hE
  have hclE : extension objs (intention objs (ocboProto f)) ⊆ E :=
    cl_subset_closed hEproto (proto_subset_range hgood) hEcl
  have hdne : (E \ extension objs (intention objs (ocboProto f))).Nonempty := by
    rw [Finset.sdiff_nonempty]
    intro hsub
    exact hne (Finset.Subset.antisymm hsub hclE)
  have hgmem := Finset.min'_mem _ hdne
  rw [Finset.mem_sdiff] at hgmem
  refine ⟨(E \ extension objs (intention objs (ocboProto f))).min' hdne, ?_, ?_⟩
  · rw [mem_searchNotFrom]
    refine ⟨Finset.mem_range.mp (hEr hgmem.1), hgmem.2, ?_⟩
    by_contra hle
    push_neg at hle
    rcases lt_or_eq_of_le (by omega :
        ((E \ extension objs (intention objs (ocboProto f))).min' hdne : ℤ) ≤ f.2)
      with hlt | heq
    · have hK := hElex _ hgmem.1 hlt
      exact hgmem.2 (subset_cl (proto_subset_range hgood) (subset_proto f hK))
    · have hpos2 : 0 ≤ f.2 := by omega
      have hmem2 : f.2.toNat ∈ ocboProto f := by
        unfold ocboProto
        rw [if_pos hpos2]
        exact Finset.mem_insert_self _ _
      have hproto : (E \ extension objs (intention objs (ocboProto f))).min' hdne
          ∈ ocboProto f := by
        have hco : (E \ extension objs (intention objs (ocboProto f))).min' hdne
            = f.2.toNat := by omega
        rw [hco]
        exact hmem2
      exact hgmem.2 (subset_cl (proto_subset_range hgood) hproto)
  · rw [mem_ocboFamily]
    refine ⟨hEr, hEcl, ?_, ?_⟩
    · rw [ocboProto_ofNat]
      exact Finset.insert_subset_iff.mpr ⟨hgmem.1, hclE⟩
    · intro x hxE hxlt
      by_contra hxnE
      have hxd : x ∈ E \ extension objs (intention objs (ocboProto f)) :=
        Finset.mem_sdiff.mpr ⟨hxE, hxnE⟩
      have hminle := Finset.min'_le _ x hxd
      have hxlt2 : (x : ℤ) <
          (((E \ extension objs (intention objs (ocboProto f))).min' hdne : ℕ) : ℤ) :=
        hxlt
      omega

theorem nodup_flatMap_of_disjoint {A B : Type} (l : List A) (g : A → List B)
    (h1 : ∀ a ∈ l, (g a).Nodup)
    (h2 : List.Pairwise (fun a b => ∀ x, x ∈ g a → x ∈ g b → False) l) :
    (l.flatMap g).Nodup := by
  induction l with
  | nil => exact List.nodup_nil
  | cons a rest ih =>
      rw [List.flatMap_cons]
      rw [List.pairwise_cons] at h2
      refine List.Nodup.append (h1 a (List.mem_cons_self a rest))
        (ih (fun b hb => h1 b (List.mem_cons_of_mem a hb)) h2.2) ?_
      intro x hxa hxrest
      rw [List.mem_flatMap] at hxrest
      obtain ⟨b, hb, hxb⟩ := hxrest
      exact h2.1 b hb x hxa hxb




theorem frameRun_ocbo (objs : List P) :
    ∀ (m : ℕ) (f : Finset ℕ × ℤ), ocboGoodState objs f →
      objs.length + 1 - ocboRk f ≤ m →
    (∀ p, p ∈ frameRun objs.length ocboRk (ocboStep objs) (ocboStepBounded objs) f ↔
        ∃ E ∈ ocboFamily objs f, p = intention objs E) ∧
    (frameRun objs.length ocboRk (ocboStep objs) (ocboStepBounded objs) f).Nodup := by
  intro m
  induction m with
  | zero =>
      intro f hgood hm
      exfalso
      have hrk : ocboRk f ≤ objs.length := by
        unfold ocboRk
        rcases hgood.2 with h1 | ⟨h2a, h2b⟩ <;> omega
      omega
  | succ m ih =>
      intro f hgood hm
      rcases hs : ocboStep objs f with _ | ⟨y, cs⟩
      · have hskip := ocboStep_none hs
        rw [frameRun_none _ _ _ _ f hs]
        have hfam := ocboFamily_skip_empty hgood hskip
        refine ⟨fun p => ?_, List.nodup_nil⟩
        simp [hfam]
      · obtain ⟨hskip, hy, hcs⟩ := ocboStep_some hs
        rw [frameRun_some _ _ _ _ f y cs hs]
        have hchild : ∀ c ∈ cs, ∃ g ∈ searchNotFrom
            (extension objs (intention objs (ocboProto f))) objs.length (f.2 + 1),
            c = (extension objs (intention objs (ocboProto f)), Int.ofNat g) := by
          intro c hc
          rw [hcs] at hc
          unfold ocboChildren at hc
          rw [List.mem_map] at hc
          obtain ⟨g, hg, rfl⟩ := hc
          exact ⟨g, hg, rfl⟩
        have hchildgood : ∀ g ∈ searchNotFrom
            (extension objs (intention objs (ocboProto f))) objs.length (f.2 + 1),
            ocboGoodState objs
              (extension objs (intention objs (ocboProto f)), Int.ofNat g) := by
          intro g hg
          rw [mem_searchNotFrom] at hg
          refine ⟨extension_subset_range objs _, Or.inr ⟨Int.ofNat_nonneg g, ?_⟩⟩
          exact Int.ofNat_lt.mpr hg.1
        have hchildmeasure : ∀ g ∈ searchNotFrom
            (extension objs (intention objs (ocboProto f))) objs.length (f.2 + 1),
            objs.length + 1 - ocboRk
              (extension objs (intention objs (ocboProto f)), Int.ofNat g) ≤ m := by
          intro g hg
          rw [mem_searchNotFrom] at hg
          have h1 : f.2 + 1 ≤ (g : ℤ) := hg.2.2
          have h2 : g < objs.length := hg.1
          show objs.length + 1 - ((g : ℤ) + 1).toNat ≤ m
          unfold ocboRk at hm
          omega
        constructor
        · intro p
          rw [List.mem_cons]
          constructor
          · rintro (rfl | hp2)
            · refine ⟨extension objs (intention objs (ocboProto f)),
                clProto_mem_family hgood hskip, ?_⟩
              rw [hy, intention_cl (proto_subset_range hgood)]
            · rw [List.mem_flatMap] at hp2
              obtain ⟨c, hc, hpc⟩ := hp2
              obtain ⟨g, hg, rfl⟩ := hchild c hc
              obtain ⟨E, hEfam, rfl⟩ :=
                ((ih _ (hchildgood g hg) (hchildmeasure g hg)).1 p).mp hpc
              exact ⟨E, (family_child_subset hgood hskip hg hEfam).1, rfl⟩
          · rintro ⟨E, hEfam, rfl⟩
            by_cases hEeq : E = extension objs (intention objs (ocboProto f))
            · exact Or.inl (by
                rw [hEeq, hy, intention_cl (proto_subset_range hgood)])
            · refine Or.inr ?_
              obtain ⟨g, hg, hEchild⟩ := family_decomp hgood hskip hEfam hEeq
              rw [List.mem_flatMap]
              refine ⟨(extension objs (intention objs (ocboProto f)), Int.ofNat g),
                ?_, ?_⟩
              · rw [hcs]
                unfold ocboChildren
                exact List.mem_map_of_mem _ hg
              · exact ((ih _ (hchildgood g hg) (hchildmeasure g hg)).1 _).mpr
                  ⟨E, hEchild, rfl⟩
        · rw [List.nodup_cons]
          constructor
          · intro hy2
            rw [List.mem_flatMap] at hy2
            obtain ⟨c, hc, hyc⟩ := hy2
            obtain ⟨g, hg, rfl⟩ := hchild c hc
            obtain ⟨E, hEfam, hyE⟩ :=
              ((ih _ (hchildgood g hg) (hchildmeasure g hg)).1 y).mp hyc
            have hEfam2 := hEfam
            rw [mem_ocboFamily] at hEfam2
            have hint : intention objs E =
                intention objs (extension objs (intention objs (ocboProto f))) := by
              rw [← hyE, hy, intention_cl (proto_subset_range hgood)]
            have hEeq : E = extension objs (intention objs (ocboProto f)) := by
              have h1 : extension objs (intention objs E) = extension objs
                  (intention objs (extension objs (intention objs (ocboProto f)))) := by
                rw [hint]
              rw [hEfam2.2.1, intention_cl (proto_subset_range hgood)] at h1
              exact h1
            rw [mem_ocboFamily] at hEfam
            have hgE : g ∈ E := hEfam.2.2.1
              (by rw [ocboProto_ofNat]; exact Finset.mem_insert_self _ _)
            rw [mem_searchNotFrom] at hg
            exact hg.2.1 (hEeq ▸ hgE)
          · apply nodup_flatMap_of_disjoint
            · intro c hc
              obtain ⟨g, hg, rfl⟩ := hchild c hc
              exact (ih _ (hchildgood g hg) (hchildmeasure g hg)).2
            · rw [hcs]
              unfold ocboChildren
              rw [List.pairwise_map]
              refine List.Pairwise.imp_of_mem ?_ (pairwise_lt_searchNotFrom _ _ _)
              intro g1 g2 hg1 hg2 hlt x hx1 hx2
              obtain ⟨E1, hE1fam, hxE1⟩ :=
                ((ih _ (hchildgood g1 hg1) (hchildmeasure g1 hg1)).1 x).mp hx1
              obtain ⟨E2, hE2fam, hxE2⟩ :=
                ((ih _ (hchildgood g2 hg2) (hchildmeasure g2 hg2)).1 x).mp hx2
              rw [mem_ocboFamily] at hE1fam hE2fam
              have hE12 : E1 = E2 := by
                have h1 : extension objs (intention objs E1) =
                    extension objs (intention objs E2) := by
                  rw [← hxE1, ← hxE2]
                rw [hE1fam.2.1, hE2fam.2.1] at h1
                exact h1
              have hg1E : g1 ∈ E1 := hE1fam.2.2.1
                (by rw [ocboProto_ofNat]; exact Finset.mem_insert_self _ _)
              have hg1E2 : g1 ∈ E2 := hE12 ▸ hg1E
              have hg1Estar : g1 ∈ extension objs (intention objs (ocboProto f)) := by
                refine hE2fam.2.2.2 g1 hg1E2 ?_
                show (g1 : ℤ) < (g2 : ℤ)
                exact_mod_cast hlt
              rw [mem_searchNotFrom] at hg1
              exact hg1.2.1 hg1Estar

/-- C1: for every nonempty list of per-object patterns, `iter_intents_via_ocbo`
yields exactly the set of closed intents of the induced concept lattice — the
intents of the closed extents `E = extension(intention(E))` — each exactly
once (the yield list has no duplicates); the order is the first-discovery
order of the depth-first canonical traversal embodied by `dfsLoop`. -/
theorem ocbo_intents_correct (objs : List P) (hne : objs ≠ []) :
    (iterIntentsViaOcbo objs).Nodup ∧
    ∀ p : P, p ∈ iterIntentsViaOcbo objs ↔
      ∃ E ∈ (Finset.range objs.length).powerset,
        extension objs (intention objs E) = E ∧ p = intention objs E := by
  have hgood : ocboGoodState objs ((∅ : Finset ℕ), (-1 : ℤ)) :=
    ⟨Finset.empty_subset _, Or.inl rfl⟩
  have hmain := frameRun_ocbo objs (objs.length + 1) ((∅ : Finset ℕ), (-1 : ℤ))
    hgood (by unfold ocboRk; omega)
  have hloop : iterIntentsViaOcbo objs =
      frameRun objs.length ocboRk (ocboStep objs) (ocboStepBounded objs)
        ((∅ : Finset ℕ), (-1 : ℤ)) := by
    unfold iterIntentsViaOcbo
    rw [dfsLoop_eq_flatMap, List.flatMap_cons, List.flatMap_nil, List.append_nil]
  rw [hloop]
  refine ⟨hmain.2, fun p => (hmain.1 p).trans ?_⟩
  constructor
  · rintro ⟨E, hEfam, rfl⟩
    rw [mem_ocboFamily] at hEfam
    exact ⟨E, Finset.mem_powerset.mpr hEfam.1, hEfam.2.1, rfl⟩
  · rintro ⟨E, hEpow, hEcl, rfl⟩
    refine ⟨E, ?_, rfl⟩
    rw [mem_ocboFamily]
    refine ⟨Finset.mem_powerset.mp hEpow, hEcl, Finset.empty_subset E, ?_⟩
    intro x hx hxlt
    exfalso
    have hxlt2 : (x : ℤ) < -1 := hxlt
    omega

/-- C1 witness: a single object with pattern `0 : ℕ`. -/
theorem ocbo_intents_correct_witness :
    ([(0 : ℕ)] ≠ []) ∧
    ((iterIntentsViaOcbo [(0 : ℕ)]).Nodup ∧
      ∀ p : ℕ, p ∈ iterIntentsViaOcbo [(0 : ℕ)] ↔
        ∃ E ∈ (Finset.range [(0 : ℕ)].length).powerset,
          extension [(0 : ℕ)] (intention [(0 : ℕ)] E) = E ∧
            p = intention [(0 : ℕ)] E) :=
  ⟨by decide, ocbo_intents_correct [(0 : ℕ)] (by decide)⟩

theorem mem_insertTopo {a b : P} : ∀ {l : List P}, b ∈ insertTopo a l ↔ b = a ∨ b ∈ l := by
  intro l
  induction l with
  | nil => simp [insertTopo]
  | cons c rest ih =>
      unfold insertTopo
      split
      · simp [List.mem_cons]
      · simp only [List.mem_cons, ih]
        tauto

theorem pairwise_insertTopo {a : P} : ∀ {l : List P},
    l.Pairwise (fun x y => ¬ y < x) → (insertTopo a l).Pairwise (fun x y => ¬ y < x) := by
  intro l
  induction l with
  | nil => simp [insertTopo]
  | cons b rest ih =>
      intro hl
      rw [List.pairwise_cons] at hl
      unfold insertTopo
      split
      · rename_i hab
        rw [List.pairwise_cons]
        refine ⟨?_, List.pairwise_cons.mpr hl⟩
        intro y hy
        rcases List.mem_cons.mp hy with rfl | hy2
        · intro hya
          exact absurd (lt_of_lt_of_le hya hab) (lt_irrefl y)
        · intro hya
          exact hl.1 y hy2 (lt_of_lt_of_le hya hab)
      · rename_i hab
        rw [List.pairwise_cons]
        refine ⟨?_, ih hl.2⟩
        intro y hy
        rcases mem_insertTopo.mp hy with rfl | hy2
        · intro hyb
          exact hab (le_of_lt hyb)
        · exact hl.1 y hy2

theorem keys_addToGroup (ext : Finset ℕ) (a : P) : ∀ (l : List (Finset ℕ × List P)),
    (addToGroup ext a l).map Prod.fst =
      if ext ∈ l.map Prod.fst then l.map Prod.fst else l.map Prod.fst ++ [ext] := by
  intro l
  induction l with
  | nil => simp [addToGroup]
  | cons ge rest ih =>
      unfold addToGroup
      rcases ge with ⟨e, ps⟩
      split
      · rename_i heq
        subst heq
        simp [List.mem_cons]
      · rename_i hne
        simp only [List.map_cons, List.mem_cons]
        rw [ih]
        by_cases hmem : ext ∈ rest.map Prod.fst
        · rw [if_pos hmem, if_pos (Or.inr hmem)]
        · rw [if_neg hmem, if_neg ?_]
          · simp
          · rintro (heq2 | h2)
            · exact hne heq2.symm
            · exact hmem h2

theorem entries_addToGroup {ext : Finset ℕ} {a : P} {ge : Finset ℕ × List P} :
    ∀ {l : List (Finset ℕ × List P)}, ge ∈ addToGroup ext a l →
      ge ∈ l ∨ ge = (ext, [a]) ∨
        ∃ ps, (ext, ps) ∈ l ∧ ge = (ext, insertTopo a ps) := by
  intro l
  induction l with
  | nil =>
      intro h
      unfold addToGroup at h
      rcases List.mem_singleton.mp h with rfl
      exact Or.inr (Or.inl rfl)
  | cons ge0 rest ih =>
      intro h
      unfold addToGroup at h
      rcases ge0 with ⟨e, ps⟩
      split at h
      · rename_i heq
        subst heq
        rcases List.mem_cons.mp h with rfl | h2
        · exact Or.inr (Or.inr ⟨ps, List.mem_cons_self _ _, rfl⟩)
        · exact Or.inl (List.mem_cons_of_mem _ h2)
      · rcases List.mem_cons.mp h with rfl | h2
        · exact Or.inl (List.mem_cons_self _ _)
        · rcases ih h2 with h3 | h3 | ⟨ps2, hps2, h4⟩
          · exact Or.inl (List.mem_cons_of_mem _ h3)
          · exact Or.inr (Or.inl h3)
          · exact Or.inr (Or.inr ⟨ps2, List.mem_cons_of_mem _ hps2, h4⟩)

theorem groupInv_addToGroup {irr : List (P × Finset ℕ)}
    {groups : List (Finset ℕ × List P)} (hinv : GroupInv irr groups) (a : P) :
    GroupInv irr (addToGroup (psExtent irr a) a groups) := by
  constructor
  · rw [keys_addToGroup]
    split
    · exact hinv.1
    · exact List.Nodup.append hinv.1 (List.nodup_singleton _)
        (by
          intro x hx hx2
          rename_i hmem
          rw [List.mem_singleton.mp hx2] at hx
          exact hmem hx)
  · intro ge hge
    rcases entries_addToGroup hge with h1 | h1 | ⟨ps, hps, h1⟩
    · exact hinv.2 ge h1
    · subst h1
      refine ⟨?_, List.pairwise_singleton _ _⟩
      intro p hp
      rw [List.mem_singleton.mp hp]
    · subst h1
      have hold := hinv.2 _ hps
      refine ⟨?_, pairwise_insertTopo hold.2⟩
      intro p hp
      rcases mem_insertTopo.mp hp with rfl | hp2
      · rfl
      · exact hold.1 p hp2

theorem groupInv_patternsPerExtent (atomsF : P → List P) (irr : List (P × Finset ℕ)) :
    GroupInv irr (patternsPerExtent atomsF irr) := by
  unfold patternsPerExtent
  generalize dedupFirst ((irr.map Prod.fst).flatMap atomsF) = cands
  induction cands using List.reverseRecOn with
  | nil => exact ⟨List.nodup_nil, by intro ge hge; cases hge⟩
  | append_singleton rest a ih =>
      rw [List.foldl_append, List.foldl_cons, List.foldl_nil]
      exact groupInv_addToGroup ih a




theorem extentPrec_total (e1 e2 : Finset ℕ) : extentPrec e1 e2 ∨ extentPrec e2 e1 := by
  unfold extentPrec
  rcases lt_trichotomy e1.card e2.card with h | h | h
  · exact Or.inr (Or.inl h)
  · rcases natListLe_total (finsetAsc e1) (finsetAsc e2) with h2 | h2
    · exact Or.inl (Or.inr ⟨h, h2⟩)
    · exact Or.inr (Or.inr ⟨h.symm, h2⟩)
  · exact Or.inl (Or.inl h)

theorem extentPrec_trans (e1 e2 e3 : Finset ℕ) (h12 : extentPrec e1 e2)
    (h23 : extentPrec e2 e3) : extentPrec e1 e3 := by
  unfold extentPrec at h12 h23 ⊢
  rcases h12 with h12 | ⟨h12a, h12b⟩
  · rcases h23 with h23 | ⟨h23a, h23b⟩
    · exact Or.inl (lt_trans h23 h12)
    · exact Or.inl (by omega)
  · rcases h23 with h23 | ⟨h23a, h23b⟩
    · exact Or.inl (by omega)
    · exact Or.inr ⟨by omega, natListLe_trans _ _ _ h12b h23b⟩

theorem groupOf_spec (groups : List (Finset ℕ × List P)) (e : Finset ℕ) :
    groupOf groups e = [] ∨
      ∃ ge ∈ groups, ge.1 = e ∧ groupOf groups e = ge.2 := by
  unfold groupOf
  rcases hf : groups.find? fun ge => ge.1 == e with _ | ge
  · rw [hf]
    exact Or.inl rfl
  · rw [hf]
    have hbeq := List.find?_some hf
    simp only [beq_iff_eq] at hbeq
    exact Or.inr ⟨ge, List.mem_of_find?_eq_some hf, hbeq, rfl⟩

theorem pairsList_eq (atomsF : P → List P) (irr : List (P × Finset ℕ)) :
    initAtomicPatternsPairs atomsF irr =
      (List.insertionSort extentPrec ((patternsPerExtent atomsF irr).map Prod.fst)).flatMap
        fun e => (groupOf (patternsPerExtent atomsF irr) e).map fun p => (p, e) := rfl

theorem mem_pairsList_ext {atomsF : P → List P} {irr : List (P × Finset ℕ)}
    {x : P × Finset ℕ} (hx : x ∈ initAtomicPatternsPairs atomsF irr) :
    psExtent irr x.1 = x.2 := by
  rw [pairsList_eq, List.mem_flatMap] at hx
  obtain ⟨e, he, hx2⟩ := hx
  rw [List.mem_map] at hx2
  obtain ⟨p, hp, rfl⟩ := hx2
  rcases groupOf_spec (patternsPerExtent atomsF irr) e with hnil | ⟨ge, hge, hgee, hgeq⟩
  · rw [hnil] at hp
    cases hp
  · rw [hgeq] at hp
    have hinv := (groupInv_patternsPerExtent atomsF irr).2 ge hge
    rw [hinv.1 p hp, hgee]

theorem pairsList_pairwise (atomsF : P → List P) (irr : List (P × Finset ℕ)) :
    (initAtomicPatternsPairs atomsF irr).Pairwise
      (fun x y => ¬ (x.2 ⊂ y.2) ∧ (x.2 = y.2 → ¬ (y.1 < x.1))) := by
  rw [pairsList_eq, List.pairwise_flatMap]
  have hkeys : ((patternsPerExtent atomsF irr).map Prod.fst).Nodup :=
    (groupInv_patternsPerExtent atomsF irr).1
  have hsortnodup : (List.insertionSort extentPrec
      ((patternsPerExtent atomsF irr).map Prod.fst)).Nodup :=
    (List.perm_insertionSort _ _).nodup_iff.mpr hkeys
  have hsorted : (List.insertionSort extentPrec
      ((patternsPerExtent atomsF irr).map Prod.fst)).Pairwise extentPrec := by
    letI : IsTotal (Finset ℕ) extentPrec := ⟨extentPrec_total⟩
    letI : IsTrans (Finset ℕ) extentPrec := ⟨fun a b c => extentPrec_trans a b c⟩
    exact List.sorted_insertionSort _ _
  constructor
  · intro e he
    rw [List.pairwise_map]
    have htopo : (groupOf (patternsPerExtent atomsF irr) e).Pairwise
        (fun x y => ¬ y < x) := by
      rcases groupOf_spec (patternsPerExtent atomsF irr) e with hnil | ⟨ge, hge, _, hgeq⟩
      · rw [hnil]
        exact List.Pairwise.nil
      · rw [hgeq]
        exact ((groupInv_patternsPerExtent atomsF irr).2 ge hge).2
    refine htopo.imp ?_
    intro a b hab
    exact ⟨ssubset_irrefl e, fun _ => hab⟩
  · have hcomb := hsorted.and hsortnodup
    refine hcomb.imp ?_
    rintro e1 e2 ⟨hprec, hne⟩ x hx y hy
    rw [List.mem_map] at hx hy
    obtain ⟨p1, hp1, rfl⟩ := hx
    obtain ⟨p2, hp2, rfl⟩ := hy
    refine ⟨?_, fun heq => absurd heq hne⟩
    intro hss
    have hss2 : e1 ⊂ e2 := hss
    have hcard := Finset.card_lt_card hss2
    unfold extentPrec at hprec
    rcases hprec with h | ⟨h, _⟩ <;> omega

theorem patAt_eq {pats : List (P × Finset ℕ)} {i : ℕ} (hi : i < pats.length) :
    patAt pats i = (pats[i]).1 := by
  unfold patAt
  rw [List.getD_eq_getElem?_getD, List.getElem?_eq_getElem hi]
  rfl

theorem extAt_eq {pats : List (P × Finset ℕ)} {i : ℕ} (hi : i < pats.length) :
    extAt pats i = (pats[i]).2 := by
  unfold extAt
  rw [List.getD_eq_getElem?_getD, List.getElem?_eq_getElem hi]
  rfl

theorem pairsList_extAt {atomsF : P → List P} {irr : List (P × Finset ℕ)} {i : ℕ}
    (hi : i < (initAtomicPatternsPairs atomsF irr).length) :
    extAt (initAtomicPatternsPairs atomsF irr) i =
      psExtent irr (patAt (initAtomicPatternsPairs atomsF irr) i) := by
  rw [patAt_eq hi, extAt_eq hi]
  exact (mem_pairsList_ext (List.getElem_mem hi)).symm

theorem pairsList_ssubset_lt {atomsF : P → List P} {irr : List (P × Finset ℕ)}
    {i j : ℕ} (hi : i < (initAtomicPatternsPairs atomsF irr).length)
    (hj : j < (initAtomicPatternsPairs atomsF irr).length)
    (hss : extAt (initAtomicPatternsPairs atomsF irr) j
      ⊂ extAt (initAtomicPatternsPairs atomsF irr) i) : i < j := by
  rcases lt_trichotomy i j with h | h | h
  · exact h
  · subst h
    exact absurd hss (ssubset_irrefl _)
  · exfalso
    have hpw := (List.pairwise_iff_getElem.mp (pairsList_pairwise atomsF irr)) j i hj hi h
    rw [extAt_eq hi, extAt_eq hj] at hss
    exact hpw.1 hss

theorem pairsList_lt_lt {atomsF : P → List P} {irr : List (P × Finset ℕ)}
    {i j : ℕ} (hi : i < (initAtomicPatternsPairs atomsF irr).length)
    (hj : j < (initAtomicPatternsPairs atomsF irr).length)
    (hlt : patAt (initAtomicPatternsPairs atomsF irr) i
      < patAt (initAtomicPatternsPairs atomsF irr) j) :
    (i < j ∧ extAt (initAtomicPatternsPairs atomsF irr) j
        = extAt (initAtomicPatternsPairs atomsF irr) i) ∨
      extAt (initAtomicPatternsPairs atomsF irr) j
        ⊂ extAt (initAtomicPatternsPairs atomsF irr) i := by
  have hsub : extAt (initAtomicPatternsPairs atomsF irr) j
      ⊆ extAt (initAtomicPatternsPairs atomsF irr) i := by
    rw [pairsList_extAt hi, pairsList_extAt hj]
    exact psExtent_anti (le_of_lt hlt)
  by_cases heq : extAt (initAtomicPatternsPairs atomsF irr) j
      = extAt (initAtomicPatternsPairs atomsF irr) i
  · refine Or.inl ⟨?_, heq⟩
    rcases lt_trichotomy i j with h | h | h
    · exact h
    · subst h
      exact absurd hlt (lt_irrefl _)
    · exfalso
      have hpw := (List.pairwise_iff_getElem.mp (pairsList_pairwise atomsF irr)) j i hj hi h
      rw [extAt_eq hi, extAt_eq hj] at heq
      rw [patAt_eq hi, patAt_eq hj] at hlt
      exact hpw.2 heq hlt
  · exact Or.inr (Finset.ssubset_iff_subset_ne.mpr ⟨hsub, heq⟩)

theorem mem_patternsToTest {pats : List (P × Finset ℕ)} {i k : ℕ} :
    k ∈ patternsToTest pats i ↔
      k < pats.length ∧ ((i < k ∧ extAt pats k = extAt pats i) ∨ extAt pats k ⊂ extAt pats i) := by
  unfold patternsToTest
  simp only [List.mem_filter, List.mem_range, decide_eq_true_eq]




theorem absorbLoop_correct (pats : List (P × Finset ℕ)) (ordersAfter : ℕ → Finset ℕ)
    (p : P) :
    ∀ (ks : List ℕ) (s banned : Finset ℕ),
      (∀ k ∈ ks, k < pats.length) →
      (∀ k ∈ ks, ∀ j, j ∈ ordersAfter k ↔ j < pats.length ∧ patAt pats k < patAt pats j) →
      (∀ j ∈ s, j < pats.length ∧ p < patAt pats j) →
      banned ⊆ s →
      (∀ j, j < pats.length → p < patAt pats j → j ∈ s ∨ j ∈ ks) →
      ∀ j, j ∈ absorbLoop pats ordersAfter p ks s banned ↔
        j < pats.length ∧ p < patAt pats j := by
  intro ks
  induction ks with
  | nil =>
      intro s banned _ _ hs _ hcompl j
      unfold absorbLoop
      constructor
      · exact fun hj => hs j hj
      · rintro ⟨hjn, hjlt⟩
        rcases hcompl j hjn hjlt with h | h
        · exact h
        · cases h
  | cons k rest ih =>
      intro s banned hks horders hs hbs hcompl j
      unfold absorbLoop
      split
      · rename_i hkb
        apply ih
        · exact fun q hq => hks q (List.mem_cons_of_mem _ hq)
        · exact fun q hq => horders q (List.mem_cons_of_mem _ hq)
        · exact hs
        · exact hbs
        · intro j2 hj2 hlt2
          rcases hcompl j2 hj2 hlt2 with h | h
          · exact Or.inl h
          · rcases List.mem_cons.mp h with rfl | h2
            · exact Or.inl (hbs hkb)
            · exact Or.inr h2
      · split
        · rename_i hkb hplt
          apply ih
          · exact fun q hq => hks q (List.mem_cons_of_mem _ hq)
          · exact fun q hq => horders q (List.mem_cons_of_mem _ hq)
          · intro j2 hj2
            rcases Finset.mem_union.mp hj2 with h | h
            · rcases Finset.mem_insert.mp h with rfl | h2
              · exact ⟨hks j2 (List.mem_cons_self _ _), hplt⟩
              · exact hs j2 h2
            · have hoq := (horders k (List.mem_cons_self _ _) j2).mp h
              exact ⟨hoq.1, lt_trans hplt hoq.2⟩
          · intro j2 hj2
            rcases Finset.mem_union.mp hj2 with h | h
            · exact Finset.mem_union_left _ (Finset.mem_insert_of_mem (hbs h))
            · exact Finset.mem_union_right _ h
          · intro j2 hj2 hlt2
            rcases hcompl j2 hj2 hlt2 with h | h
            · exact Or.inl (Finset.mem_union_left _ (Finset.mem_insert_of_mem h))
            · rcases List.mem_cons.mp h with rfl | h2
              · exact Or.inl (Finset.mem_union_left _ (Finset.mem_insert_self _ _))
              · exact Or.inr h2
        · rename_i hkb hnplt
          apply ih
          · exact fun q hq => hks q (List.mem_cons_of_mem _ hq)
          · exact fun q hq => horders q (List.mem_cons_of_mem _ hq)
          · exact hs
          · exact hbs
          · intro j2 hj2 hlt2
            rcases hcompl j2 hj2 hlt2 with h | h
            · exact Or.inl h
            · rcases List.mem_cons.mp h with rfl | h2
              · exact absurd hlt2 hnplt
              · exact Or.inr h2

theorem length_ordersFrom (pats : List (P × Finset ℕ)) :
    ∀ k, (ordersFrom pats k).length = k := by
  intro k
  induction k with
  | zero => rfl
  | succ k ih =>
      unfold ordersFrom
      rw [List.length_cons, ih]

theorem ordersFrom_correct (pats : List (P × Finset ℕ))
    (hHA : ∀ i k, i < pats.length → k ∈ patternsToTest pats i → i < k)
    (hHB : ∀ i j, i < pats.length → j < pats.length →
      patAt pats i < patAt pats j → j ∈ patternsToTest pats i) :
    ∀ k, k ≤ pats.length → ∀ pos, pats.length - k ≤ pos → pos < pats.length →
      ∀ j, j ∈ (ordersFrom pats k).getD (pos - (pats.length - k)) ∅ ↔
        j < pats.length ∧ patAt pats pos < patAt pats j := by
  intro k
  induction k with
  | zero =>
      intro _ pos hpos1 hpos2 j
      exfalso
      omega
  | succ k ih =>
      intro hk pos hpos1 hpos2 j
      by_cases hposeq : pos = pats.length - (k + 1)
      · subst hposeq
        rw [Nat.sub_self]
        unfold ordersFrom
        rw [List.getD_cons_zero]
        apply absorbLoop_correct
        · intro q hq
          exact (mem_patternsToTest.mp hq).1
        · intro q hq j2
          have hik : pats.length - (k + 1) < q := hHA _ q (by omega) hq
          have hqn : q < pats.length := (mem_patternsToTest.mp hq).1
          exact ih (by omega) q (by omega) hqn j2
        · intro j2 hj2
          exact absurd hj2 (Finset.not_mem_empty j2)
        · exact Finset.Subset.refl _
        · intro j2 hj2 hlt2
          exact Or.inr (hHB _ j2 (by omega) hj2 hlt2)
      · have hgt : pats.length - (k + 1) < pos := by omega
        have hidx : pos - (pats.length - (k + 1)) = (pos - (pats.length - k)) + 1 := by
          omega
        unfold ordersFrom
        rw [hidx, List.getD_cons_succ]
        exact ih (by omega) pos (by omega) hpos2 j

theorem initAtomicPatternsOrder_char (atomsF : P → List P) (irr : List (P × Finset ℕ)) :
    ∀ i j, i < (initAtomicPatternsPairs atomsF irr).length →
      (j ∈ (initAtomicPatternsOrder atomsF irr).getD i ∅ ↔
        j < (initAtomicPatternsPairs atomsF irr).length ∧
          patAt (initAtomicPatternsPairs atomsF irr) i <
            patAt (initAtomicPatternsPairs atomsF irr) j) := by
  intro i j hi
  have hHA : ∀ i2 k2, i2 < (initAtomicPatternsPairs atomsF irr).length →
      k2 ∈ patternsToTest (initAtomicPatternsPairs atomsF irr) i2 → i2 < k2 := by
    intro i2 k2 hi2 hk2
    rcases (mem_patternsToTest.mp hk2).2 with ⟨hik, _⟩ | hss
    · exact hik
    · exact pairsList_ssubset_lt hi2 (mem_patternsToTest.mp hk2).1 hss
  have hHB : ∀ i2 j2, i2 < (initAtomicPatternsPairs atomsF irr).length →
      j2 < (initAtomicPatternsPairs atomsF irr).length →
      patAt (initAtomicPatternsPairs atomsF irr) i2 <
        patAt (initAtomicPatternsPairs atomsF irr) j2 →
      j2 ∈ patternsToTest (initAtomicPatternsPairs atomsF irr) i2 := by
    intro i2 j2 hi2 hj2 hlt
    rw [mem_patternsToTest]
    exact ⟨hj2, pairsList_lt_lt hi2 hj2 hlt⟩
  have hmain := ordersFrom_correct _ hHA hHB
    (initAtomicPatternsPairs atomsF irr).length (le_refl _) i (by omega) hi j
  rw [Nat.sub_self, Nat.sub_zero] at hmain
  unfold initAtomicPatternsOrder
  exact hmain




/-- C3 amended: after `init_atomic_patterns`, the stored atomic-pattern order
is a strict, transitively closed order with the OPPOSITE direction to the
claim: whenever `j` is in the greater-set stored for position `i`, the pattern
at `i` is strictly LESS precise than the pattern at `j` (`A < B`, not
`B < A`), so the relation is irreflexive; and the stored bit vectors are
already transitively closed — another closure pass changes nothing. -/
theorem atomic_order_correct (atomsF : P → List P) (irr : List (P × Finset ℕ)) :
    (∀ i j, j ∈ (initAtomicPatternsOrder atomsF irr).getD i ∅ →
      patAt (initAtomicPatternsPairs atomsF irr) i <
        patAt (initAtomicPatternsPairs atomsF irr) j) ∧
    transClosePass (initAtomicPatternsOrder atomsF irr) =
      initAtomicPatternsOrder atomsF irr := by
  have hlen : (initAtomicPatternsOrder atomsF irr).length =
      (initAtomicPatternsPairs atomsF irr).length := by
    unfold initAtomicPatternsOrder
    exact length_ordersFrom _ _
  have hchar := initAtomicPatternsOrder_char atomsF irr
  have hmem : ∀ i j, j ∈ (initAtomicPatternsOrder atomsF irr).getD i ∅ →
      i < (initAtomicPatternsPairs atomsF irr).length := by
    intro i j hj
    by_contra hge
    push_neg at hge
    have hempty : (initAtomicPatternsOrder atomsF irr).getD i ∅ = ∅ := by
      rw [List.getD_eq_getElem?_getD, List.getElem?_eq_none]
      · rfl
      · rw [hlen]
        exact hge
    rw [hempty] at hj
    exact absurd hj (Finset.not_mem_empty j)
  constructor
  · intro i j hj
    exact ((hchar i j (hmem i j hj)).mp hj).2
  · unfold transClosePass
    apply List.ext_getElem?
    intro i
    rcases Nat.lt_or_ge i (initAtomicPatternsOrder atomsF irr).length with hi | hi
    · rw [List.getElem?_eq_getElem (by rw [List.length_map]; exact hi),
        List.getElem?_eq_getElem hi]
      rw [List.getElem_map]
      refine congrArg some ?_
      refine Finset.union_eq_left.mpr ?_
      intro x hx
      rw [Finset.mem_biUnion] at hx
      obtain ⟨jj, hjj, hx2⟩ := hx
      have hLi : (initAtomicPatternsOrder atomsF irr)[i] =
          (initAtomicPatternsOrder atomsF irr).getD i ∅ := by
        rw [List.getD_eq_getElem?_getD, List.getElem?_eq_getElem hi]
        rfl
      rw [hLi] at hjj ⊢
      have hi2 : i < (initAtomicPatternsPairs atomsF irr).length := by
        rw [← hlen]
        exact hi
      have h1 := (hchar i jj hi2).mp hjj
      have h2 := (hchar jj x h1.1).mp hx2
      exact (hchar i x hi2).mpr ⟨h2.1, lt_trans h1.2 h2.2⟩
    · rw [List.getElem?_eq_none (by rw [List.length_map]; exact hi),
        List.getElem?_eq_none hi]

/-- C3 witness: one object described by `{0, 1} : Finset (Fin 2)` whose
atomic patterns are `{0}` and `{0, 1}`; position 1 is in the greater-set of
position 0 and the pattern at 0 is strictly below the pattern at 1. -/
theorem atomic_order_correct_witness :
    (1 ∈ (initAtomicPatternsOrder
        (fun p => if p = ({0, 1} : Finset (Fin 2)) then [{0}, {0, 1}] else [p])
        (objectIrreducibles [({0, 1} : Finset (Fin 2))])).getD 0 ∅) ∧
    patAt (initAtomicPatternsPairs
        (fun p => if p = ({0, 1} : Finset (Fin 2)) then [{0}, {0, 1}] else [p])
        (objectIrreducibles [({0, 1} : Finset (Fin 2))])) 0 <
      patAt (initAtomicPatternsPairs
        (fun p => if p = ({0, 1} : Finset (Fin 2)) then [{0}, {0, 1}] else [p])
        (objectIrreducibles [({0, 1} : Finset (Fin 2))])) 1 :=
  ⟨by decide,
    (atomic_order_correct
      (fun p => if p = ({0, 1} : Finset (Fin 2)) then [{0}, {0, 1}] else [p])
      (objectIrreducibles [({0, 1} : Finset (Fin 2))])).1 0 1 (by decide)⟩

/-- C3 counterexample: in the same instance, position 1 is in the stored
greater-set of position 0, yet the pattern at position 1 (`{0, 1}`) is NOT
strictly less precise than the pattern at position 0 (`{0}`) — the claimed
direction `B < A` fails (the true direction is `A < B`). -/
theorem atomic_order_counterexample :
    (1 ∈ (initAtomicPatternsOrder
        (fun p => if p = ({0, 1} : Finset (Fin 2)) then [{0}, {0, 1}] else [p])
        (objectIrreducibles [({0, 1} : Finset (Fin 2))])).getD 0 ∅) ∧
    ¬ (patAt (initAtomicPatternsPairs
        (fun p => if p = ({0, 1} : Finset (Fin 2)) then [{0}, {0, 1}] else [p])
        (objectIrreducibles [({0, 1} : Finset (Fin 2))])) 1 <
      patAt (initAtomicPatternsPairs
        (fun p => if p = ({0, 1} : Finset (Fin 2)) then [{0}, {0, 1}] else [p])
        (objectIrreducibles [({0, 1} : Finset (Fin 2))])) 0) := by
  constructor
  · decide
  · decide

end Paspailleur
